import Mathlib

/-!
# Text-Analyzer: the templated BST of `bst.h`, instantiated at `WordEntry`, and
the scans of `main.cpp`

The tree of `bst.h` is built from raw owning pointers (`struct Node*`), and two of
its methods (`remove`, `empty`) call `delete` on nodes.  The embedding therefore
keeps the free store explicit:

* a node pointer is `Option Nat` (`none` is `NULL`, `some a` is the address `a`);
* the free store is a list of cells, `new` appends a cell, `delete` turns the
  cell into `none`;
* every member access `p->field` goes through `deref`, which reports a fault for
  `NULL`, for a deleted cell and for an address that was never allocated;
* recursive helpers and loops carry a fuel argument; the public methods supply
  `heap.length + 1`, which exceeds the depth of every acyclic tree in the store.

`int` fields that only ever count upwards from `0` (`numNodes`, `toArrayIndex`)
are natural numbers.  `WordEntry::frequency` is a 32-bit `int`: its value is an
integer and the one arithmetic operation on it, `operator+=`, wraps around at
`2^31` (`wrapInt`).
-/

namespace TextAnalyzer

/-! ## Strings and `WordEntry` -/

/-- Lexicographic comparison of two character sequences by character code, the
order of `std::string::operator<`. -/
def strLt : List Char → List Char → Bool
  | _, [] => false
  | [], _ :: _ => true
  | a :: as, b :: bs =>
    if a.toNat < b.toNat then true
    else if a.toNat = b.toNat then strLt as bs
    else false

/-- The value a 32-bit `int` holds when the mathematical result of an operation
is `x`: the representative of `x` modulo `2^32` in the range from `-2^31` to
`2^31 - 1`, which is what the compiled program computes when an `int` addition
leaves the range. -/
def wrapInt (x : Int) : Int := (x + 2147483648) % 4294967296 - 2147483648

/-- The class `WordEntry` of `bst.h`: a word and its frequency. -/
structure WordEntry where
  word : String
  frequency : Int
deriving DecidableEq, Repr, Inhabited

namespace WordEntry

/-- `WordEntry::operator<`: `this->word < object.word`. -/
def lt (self object : WordEntry) : Bool := strLt self.word.data object.word.data

/-- `WordEntry::operator>`: `this->word > object.word`. -/
def gt (self object : WordEntry) : Bool := strLt object.word.data self.word.data

/-- `WordEntry::operator+=`: `this->frequency += num`, in 32-bit `int`
arithmetic. -/
def addAssign (self : WordEntry) (num : Int) : WordEntry :=
  { self with frequency := wrapInt (self.frequency + num) }

/-- Modelled from the spec: `operator==` on `WordEntry`, which `BST::find` uses and
`bst.h` does not declare.  Two entries are equal for tree placement exactly when
neither is less nor greater than the other. -/
def eq (self object : WordEntry) : Bool := !(self.lt object) && !(self.gt object)

end WordEntry

/-! ## The free store -/

/-- The faults a pointer program can run into. -/
inductive Fault where
  /-- member access through `NULL` -/
  | nullDeref
  /-- member access through a pointer to a node that was `delete`d -/
  | useAfterFree
  /-- member access through an address that was never allocated -/
  | wildPointer
  /-- array write outside the allocated buffer -/
  | outOfBounds
  /-- the fuel ran out: the walk does not end -/
  | diverge
deriving DecidableEq, Repr

/-- The `struct Node` of `BST<WordEntry>`. -/
structure Node where
  data : WordEntry
  leftNode : Option Nat
  rightNode : Option Nat
deriving DecidableEq, Repr

/-- The free store: cell `a` holds the node at address `a`, `none` once deleted. -/
abbrev Heap := List (Option Node)

/-- Member access through a node pointer. -/
def deref (heap : Heap) : Option Nat → Except Fault Node
  | none => .error .nullDeref
  | some a =>
    match heap[a]? with
    | some (some nd) => .ok nd
    | some none => .error .useAfterFree
    | none => .error .wildPointer

/-- The class `BST<WordEntry>` together with the free store its nodes live in. -/
structure BST where
  heap : Heap
  root : Option Nat
  numNodes : Nat
  toArrayIndex : Nat
deriving DecidableEq, Repr

namespace BST

/-- `BST::BST()`: no root, no nodes, cursor at `0`; nothing allocated yet. -/
def new : BST := { heap := [], root := none, numNodes := 0, toArrayIndex := 0 }

/-- `BST::insertHelper(parentNode, node, data)`. -/
def insertHelper : Nat → BST → Option Nat → Option Nat → WordEntry → Except Fault BST
  | 0, _, _, _, _ => .error .diverge
  | fuel + 1, t, parentNode, node, data =>
    match node with
    | none =>
      -- node = new struct Node; fill it in; this->numNodes += 1
      let addr := t.heap.length
      let fresh : Node := { data := data, leftNode := none, rightNode := none }
      let t1 : BST := { t with heap := t.heap ++ [some fresh], numNodes := t.numNodes + 1 }
      match t1.root with
      | none => .ok { t1 with root := some addr }
      | some _ =>
        match deref t1.heap parentNode, parentNode with
        | .ok pn, some p =>
          if pn.data.lt fresh.data then
            .ok { t1 with heap := t1.heap.set p (some { pn with rightNode := some addr }) }
          else if pn.data.gt fresh.data then
            .ok { t1 with heap := t1.heap.set p (some { pn with leftNode := some addr }) }
          else .ok t1
        | .ok _, none => .error .nullDeref
        | .error e, _ => .error e
    | some n =>
      match deref t.heap (some n) with
      | .error e => .error e
      | .ok nd =>
        if data.gt nd.data then insertHelper fuel t (some n) nd.rightNode data
        else if data.lt nd.data then insertHelper fuel t (some n) nd.leftNode data
        else .ok { t with heap := t.heap.set n (some { nd with data := nd.data.addAssign 1 }) }

/-- `BST::insert(data)`. -/
def insert (t : BST) (data : WordEntry) : Except Fault BST :=
  insertHelper (t.heap.length + 1) t t.root t.root data

/-- The `while (tempNode->leftNode) tempNode = tempNode->leftNode;` loop of
`deleteNode`, started at `tempNode`; yields the final `tempNode`. -/
def leftmost : Nat → Heap → Option Nat → Except Fault (Option Nat)
  | 0, _, _ => .error .diverge
  | fuel + 1, heap, tempNode =>
    match deref heap tempNode with
    | .error e => .error e
    | .ok nd =>
      match nd.leftNode with
      | none => .ok tempNode
      | some l => leftmost fuel heap (some l)

/-- The statement `delete p`. -/
def free (heap : Heap) (p : Nat) : Heap := heap.set p none

/-- `BST::deleteNode(node)`.  The parameter `node` is a copy of the caller's
pointer: the assignments `node = node->rightNode` and `node = node->leftNode`
change that copy only, so no link of the tree and neither `root` nor `numNodes`
is written, apart from `tempNode->leftNode` in the two-children case. -/
def deleteNode (t : BST) (node : Option Nat) : Except Fault BST :=
  match node with
  | none => .ok t
  | some n =>
    match deref t.heap (some n) with
    | .error e => .error e
    | .ok nd =>
      if nd.leftNode = none then
        .ok { t with heap := free t.heap n }
      else if nd.rightNode = none then
        .ok { t with heap := free t.heap n }
      else
        match leftmost (t.heap.length + 1) t.heap nd.rightNode with
        | .error e => .error e
        | .ok tempNode =>
          match deref t.heap tempNode, tempNode with
          | .ok tn, some s =>
            let heap1 := t.heap.set s (some { tn with leftNode := nd.leftNode })
            .ok { t with heap := free heap1 n }
          | .ok _, none => .error .nullDeref
          | .error e, _ => .error e

/-- `BST::removeHelper(node, data)`: `node->data` is read before any test of
`node`. -/
def removeHelper : Nat → BST → Option Nat → WordEntry → Except Fault BST
  | 0, _, _, _ => .error .diverge
  | fuel + 1, t, node, data =>
    match deref t.heap node with
    | .error e => .error e
    | .ok nd =>
      if data.lt nd.data then removeHelper fuel t nd.leftNode data
      else if data.gt nd.data then removeHelper fuel t nd.rightNode data
      else deleteNode t node

/-- `BST::remove(data)`. -/
def remove (t : BST) (data : WordEntry) : Except Fault BST :=
  removeHelper (t.heap.length + 1) t t.root data

/-- The loop of `BST::find`, started at `node`. -/
def findLoop : Nat → Heap → Option Nat → WordEntry → Except Fault (Option Nat)
  | 0, _, _, _ => .error .diverge
  | fuel + 1, heap, node, data =>
    match node with
    | none => .ok none
    | some n =>
      match deref heap (some n) with
      | .error e => .error e
      | .ok nd =>
        if nd.data.eq data then .ok (some n)
        else if nd.data.gt data then findLoop fuel heap nd.leftNode data
        else if nd.data.lt data then findLoop fuel heap nd.rightNode data
        else findLoop fuel heap (some n) data

/-- `BST::find(data)`: the pointer to the node found, `none` for `NULL`. -/
def find (t : BST) (data : WordEntry) : Except Fault (Option Nat) :=
  findLoop (t.heap.length + 1) t.heap t.root data

/-- `BST::elementExists(data)`. -/
def elementExists (t : BST) (data : WordEntry) : Except Fault Bool :=
  match find t data with
  | .error e => .error e
  | .ok p => .ok (p != none)

/-- `BST::toArrayHelper(node, array)`: the in-order walk writing through the
instance cursor `toArrayIndex`. -/
def toArrayHelper : Nat → BST → Option Nat → List WordEntry → Except Fault (BST × List WordEntry)
  | 0, _, _, _ => .error .diverge
  | fuel + 1, t, node, array =>
    match node with
    | none => .ok (t, array)
    | some n =>
      match deref t.heap (some n) with
      | .error e => .error e
      | .ok nd =>
        match toArrayHelper fuel t nd.leftNode array with
        | .error e => .error e
        | .ok (t1, array1) =>
          if t1.toArrayIndex < array1.length then
            toArrayHelper fuel { t1 with toArrayIndex := t1.toArrayIndex + 1 } nd.rightNode
              (array1.set t1.toArrayIndex nd.data)
          else .error .outOfBounds

/-- `BST::toArray()`: a buffer of `numNodes` entries (`new type[numNodes]`, every
cell a default-constructed entry) filled by the in-order walk; the cursor is put
back to `0` afterwards. -/
def toArray (t : BST) : Except Fault (BST × List WordEntry) :=
  match toArrayHelper (t.heap.length + 1) t t.root (List.replicate t.numNodes default) with
  | .error e => .error e
  | .ok (t1, array) => .ok ({ t1 with toArrayIndex := 0 }, array)

/-- `BST::emptyHelper(node)`: the post-order walk that deletes the left subtree,
then the right subtree, then the node.  It writes no field of the `BST`. -/
def emptyHelper : Nat → BST → Option Nat → Except Fault BST
  | 0, _, _ => .error .diverge
  | fuel + 1, t, node =>
    match node with
    | none => .ok t
    | some n =>
      match deref t.heap (some n) with
      | .error e => .error e
      | .ok nd =>
        match emptyHelper fuel t nd.leftNode with
        | .error e => .error e
        | .ok t1 =>
          -- node->rightNode is read once the left subtree is gone
          match deref t1.heap (some n) with
          | .error e => .error e
          | .ok nd1 =>
            match emptyHelper fuel t1 nd1.rightNode with
            | .error e => .error e
            | .ok t2 => .ok { t2 with heap := free t2.heap n }

/-- `BST::empty()`: `return emptyHelper(this->root)`; neither `root` nor `numNodes`
is assigned. -/
def empty (t : BST) : Except Fault BST :=
  emptyHelper (t.heap.length + 1) t t.root

/-- `BST::count()`. -/
def count (t : BST) : Nat := t.numNodes

end BST

/-- The insertion loop of `main`: each word becomes a `WordEntry` of frequency `1`
and is inserted in turn. -/
def insertWords (t : BST) : List String → Except Fault BST
  | [] => .ok t
  | w :: ws =>
    match t.insert { word := w, frequency := 1 } with
    | .error e => .error e
    | .ok t1 => insertWords t1 ws

/-- A sequence of `insert` calls, one per entry, in order. -/
def insertAll (t : BST) : List WordEntry → Except Fault BST
  | [] => .ok t
  | d :: ds =>
    match t.insert d with
    | .error e => .error e
    | .ok t1 => insertAll t1 ds

/-! ## The functions of `main.cpp`

An array argument (`WordEntry*`) is the list of the entries of its buffer; a read
`array[i]` outside the buffer is a fault.  `std::isalpha` and `tolower` are the
functions of the "C" locale. -/

/-- The apostrophe character. -/
def apostrophe : Char := Char.ofNat 39

/-- `isAlpha(word)`: the scan that returns `false` at the first character that is
neither alphabetic nor an apostrophe. -/
def isAlpha (word : String) : Bool :=
  go word.data
where
  /-- The loop over the characters that are left. -/
  go : List Char → Bool
    | [] => true
    | c :: cs => if !(c.isAlpha || c == apostrophe) then false else go cs

/-- The loop `word[i] = tolower(word[i])` of `main`. -/
def toLowerWord (word : String) : String := ⟨word.data.map Char.toLower⟩

/-- The body of the token loop of `main` for one token: lower-case it, count it,
build the entry of frequency `1` and insert it if `isAlpha` accepts it. -/
def processToken (tree : BST) (numWords : Nat) (token : String) : Except Fault (BST × Nat) :=
  let word := toLowerWord token
  let numWords1 := numWords + 1
  let newWord : WordEntry := { word := word, frequency := 1 }
  if isAlpha word then
    match tree.insert newWord with
    | .error e => .error e
    | .ok tree1 => .ok (tree1, numWords1)
  else .ok (tree, numWords1)

/-- The loop of `getFrequency`, at index `i` with `n` iterations left. -/
def getFrequencyLoop (array : List WordEntry) (word : String) : Nat → Nat → Except Fault Int
  | _, 0 => .ok 0
  | i, n + 1 =>
    match array[i]? with
    | none => .error .outOfBounds
    | some e => if e.word = word then .ok e.frequency else getFrequencyLoop array word (i + 1) n

/-- `getFrequency(array, word, len)`. -/
def getFrequency (array : List WordEntry) (word : String) (len : Int) : Except Fault Int :=
  getFrequencyLoop array word 0 len.toNat

/-- The inner loop of `getMax` and `getMin`,
`for (j = 0; j < 5; j++) if (array[i].word == maxArray[j].word) found = true;`,
at index `j` with `n` iterations left. -/
def foundLoop (word : String) (maxArray : List WordEntry) : Nat → Nat → Bool → Except Fault Bool
  | _, 0, found => .ok found
  | j, n + 1, found =>
    match maxArray[j]? with
    | none => .error .outOfBounds
    | some s => foundLoop word maxArray (j + 1) n (if word = s.word then true else found)

/-- The outer loop of `getMax`, at index `i` with `n` iterations left. -/
def getMaxLoop (array maxArray : List WordEntry) (thresh : Int) :
    Nat → Nat → WordEntry → Except Fault WordEntry
  | _, 0, max => .ok max
  | i, n + 1, max =>
    match array[i]? with
    | none => .error .outOfBounds
    | some e =>
      match foundLoop e.word maxArray 0 5 false with
      | .error f => .error f
      | .ok found =>
        getMaxLoop array maxArray thresh (i + 1) n
          (if e.frequency ≥ max.frequency ∧ e.frequency ≤ thresh ∧ found = false then e else max)

/-- `getMax(array, maxArray, thresh, len)`: `max` starts as `array[10]`. -/
def getMax (array maxArray : List WordEntry) (thresh len : Int) : Except Fault WordEntry :=
  match array[10]? with
  | none => .error .outOfBounds
  | some max => getMaxLoop array maxArray thresh 0 len.toNat max

/-- The outer loop of `getMin`, at index `i` with `n` iterations left. -/
def getMinLoop (array minArray : List WordEntry) (thresh : Int) :
    Nat → Nat → WordEntry → Except Fault WordEntry
  | _, 0, min => .ok min
  | i, n + 1, min =>
    match array[i]? with
    | none => .error .outOfBounds
    | some e =>
      match foundLoop e.word minArray 0 5 false with
      | .error f => .error f
      | .ok found =>
        getMinLoop array minArray thresh (i + 1) n
          (if e.frequency ≤ min.frequency ∧ e.frequency ≥ thresh ∧ found = false then e else min)

/-- `getMin(array, minArray, thresh, len)`: `min` starts as `array[10]`. -/
def getMin (array minArray : List WordEntry) (thresh len : Int) : Except Fault WordEntry :=
  match array[10]? with
  | none => .error .outOfBounds
  | some min => getMinLoop array minArray thresh 0 len.toNat min

/-- The loop `for (i = 1; i < 5; i++) maxArray[i] = getMax(array, maxArray,
maxArray[i - 1].frequency, numNodes);` of `main`, at index `i` with `n` iterations
left. -/
def topFiveLoop (array : List WordEntry) (numNodes : Int) :
    Nat → Nat → List WordEntry → Except Fault (List WordEntry)
  | _, 0, maxArray => .ok maxArray
  | i, n + 1, maxArray =>
    match maxArray[i - 1]? with
    | none => .error .outOfBounds
    | some prev =>
      match getMax array maxArray prev.frequency numNodes with
      | .error f => .error f
      | .ok m => topFiveLoop array numNodes (i + 1) n (maxArray.set i m)

/-- The top-5 procedure of `main`: `maxArray = new WordEntry[5]` (five
default-constructed entries, of which only the words are read before they are
assigned), `maxArray[0] = getMax(array, maxArray, numNodes, numNodes)`, then the
loop. -/
def topFive (array : List WordEntry) (numNodes : Int) : Except Fault (List WordEntry) :=
  let maxArray : List WordEntry := List.replicate 5 default
  match getMax array maxArray numNodes numNodes with
  | .error f => .error f
  | .ok m => topFiveLoop array numNodes 1 4 (maxArray.set 0 m)

/-- The loop `for (i = 1; i < 5; i++) minArray[i] = getMin(array, minArray,
minArray[i - 1].frequency, numNodes);` of `main`. -/
def bottomFiveLoop (array : List WordEntry) (numNodes : Int) :
    Nat → Nat → List WordEntry → Except Fault (List WordEntry)
  | _, 0, minArray => .ok minArray
  | i, n + 1, minArray =>
    match minArray[i - 1]? with
    | none => .error .outOfBounds
    | some prev =>
      match getMin array minArray prev.frequency numNodes with
      | .error f => .error f
      | .ok m => bottomFiveLoop array numNodes (i + 1) n (minArray.set i m)

/-- The bottom-5 procedure of `main`: `minArray = new WordEntry[5]`,
`minArray[0] = getMin(array, minArray, -1, numNodes)`, then the loop. -/
def bottomFive (array : List WordEntry) (numNodes : Int) : Except Fault (List WordEntry) :=
  let minArray : List WordEntry := List.replicate 5 default
  match getMin array minArray (-1) numNodes with
  | .error f => .error f
  | .ok m => bottomFiveLoop array numNodes 1 4 (minArray.set 0 m)

/-! ## The tree a store represents

These definitions belong to the specification side: a `Tree` is the shape that
the cells reachable from a pointer spell out, each node tagged with its address. -/

/-- A binary tree of entries, every node tagged with the address of its cell. -/
inductive Tree where
  | nil : Tree
  | node (l : Tree) (a : Nat) (e : WordEntry) (r : Tree) : Tree
deriving DecidableEq, Repr

namespace Tree

/-- In-order sequence of the entries. -/
def toList : Tree → List WordEntry
  | nil => []
  | node l _ e r => l.toList ++ e :: r.toList

/-- In-order sequence of the addresses. -/
def addrs : Tree → List Nat
  | nil => []
  | node l a _ r => l.addrs ++ a :: r.addrs

/-- Number of nodes on the longest path from the root. -/
def height : Tree → Nat
  | nil => 0
  | node l _ _ r => max l.height r.height + 1

/-- The cells reachable from pointer `p` in `heap` spell out the tree: `NULL` is the
empty tree, and a node at address `a` has a live cell holding its entry and
pointers to its two subtrees. -/
def Rep (heap : Heap) : Option Nat → Tree → Prop
  | p, nil => p = none
  | p, node l a e r =>
    p = some a ∧ ∃ lp rp, heap[a]? = some (some ⟨e, lp, rp⟩) ∧ Rep heap lp l ∧ Rep heap rp r

/-- The binary-search-tree ordering: every key in the left subtree of a node is
less than the node's key, every key in its right subtree is greater. -/
def Ordered : Tree → Prop
  | nil => True
  | node l _ e r =>
    Ordered l ∧ Ordered r ∧ (∀ x ∈ l.toList, x.lt e = true) ∧ (∀ x ∈ r.toList, e.lt x = true)

/-- Insert-or-increment on the tree, the new node (if any) taking address `fresh`. -/
def ins (d : WordEntry) (fresh : Nat) : Tree → Tree
  | nil => node nil fresh d nil
  | node l a e r =>
    if d.gt e then node l a e (ins d fresh r)
    else if d.lt e then node (ins d fresh l) a e r
    else node l a (e.addAssign 1) r

/-- The address and entry at which the comparison walk for `d` stops, if it
finds the key. -/
def lookup (d : WordEntry) : Tree → Option (Nat × WordEntry)
  | nil => none
  | node l a e r =>
    if e.eq d then some (a, e)
    else if e.gt d then lookup d l
    else lookup d r

end Tree

/-- Insert-or-increment on a key-sorted sequence of entries. -/
def linsert (d : WordEntry) : List WordEntry → List WordEntry
  | [] => [d]
  | e :: es =>
    if d.gt e then e :: linsert d es
    else if d.lt e then d :: e :: es
    else e.addAssign 1 :: es

/-- The states of a `BST` that a program can reach from the constructor by calls
of `insert` that return. -/
inductive Reachable : BST → Prop
  | new : Reachable BST.new
  | insert {t t1 : BST} {d : WordEntry} : Reachable t → t.insert d = .ok t1 → Reachable t1

/-- Representation invariant: the store spells out, from `root`, a tree without
shared cells that is ordered, `numNodes` is its node count and the cursor rests
at `0`. -/
structure Inv (t : BST) (T : Tree) : Prop where
  rep : T.Rep t.heap t.root
  nodup : T.addrs.Nodup
  ordered : T.Ordered
  size : t.numNodes = T.toList.length
  cursor : t.toArrayIndex = 0

/-- What a key-sorted sequence of entries has to do with the sequence of words
that was inserted: one entry per word that occurs, carrying its number of
occurrences as a 32-bit `int`. -/
structure Tally (L : List WordEntry) (ws : List String) : Prop where
  sorted : L.Pairwise (fun a b => a.lt b = true)
  sound : ∀ e ∈ L, e.word ∈ ws ∧ e.frequency = wrapInt (ws.count e.word : Int)
  complete : ∀ w ∈ ws, ∃ e ∈ L, e.word = w

/-- The tree that `main` builds from the words "b", "a", "c" in this order. -/
def sampleTree : BST :=
  { heap := [some ⟨⟨"b", 1⟩, some 1, some 2⟩, some ⟨⟨"a", 1⟩, none, none⟩,
      some ⟨⟨"c", 1⟩, none, none⟩]
    root := some 0
    numNodes := 3
    toArrayIndex := 0 }

/-- The frequency of the first entry of a sequence that carries the word, `0` when
no entry does. -/
def firstFrequency (word : String) : List WordEntry → Int
  | [] => 0
  | e :: es => if e.word = word then e.frequency else firstFrequency word es

/-- The frequency of the first entry of a sequence that carries the word, if one
does. -/
def entryFrequency (word : String) : List WordEntry → Option Int
  | [] => none
  | e :: es => if e.word = word then some e.frequency else entryFrequency word es

/-- What one insertion of the entry `d` does to the frequency stored for the word
of `d`: the first insertion stores the frequency that `d` carries, a later one
adds 1 to the stored frequency in 32-bit arithmetic. -/
def bump (d : WordEntry) : Option Int → Option Int
  | none => some d.frequency
  | some x => some (wrapInt (x + 1))

/-- The frequency stored for `word` after the entries of a sequence have been
inserted in order, starting from what was stored before. -/
def storedFrequency (word : String) : Option Int → List WordEntry → Option Int
  | acc, [] => acc
  | acc, d :: ds => storedFrequency word (if d.word = word then bump d acc else acc) ds

/-- An entry qualifies for a thresholded scan of `getMax`: its frequency is at most
the threshold and its word is not the word of an already selected entry. -/
def Qualifies (thresh : Int) (maxArray : List WordEntry) (e : WordEntry) : Prop :=
  e.frequency ≤ thresh ∧ ∀ s ∈ maxArray, e.word ≠ s.word

/-- Eleven entries in alphabetical order with counts a:5, b:5, c:3 and 1 for d to
k. -/
def tiesArray : List WordEntry :=
  [⟨"a", 5⟩, ⟨"b", 5⟩, ⟨"c", 3⟩, ⟨"d", 1⟩, ⟨"e", 1⟩, ⟨"f", 1⟩, ⟨"g", 1⟩, ⟨"h", 1⟩,
    ⟨"i", 1⟩, ⟨"j", 1⟩, ⟨"k", 1⟩]

/-- A text of eleven distinct words in which "a" occurs twelve times. -/
def heavyText : List String :=
  List.replicate 12 "a" ++ ["b", "c", "d", "e", "f", "g", "h", "i", "j", "k"]

/-- The sorted array of `heavyText`: a:12 and 1 for b to k. -/
def heavyArray : List WordEntry :=
  [⟨"a", 12⟩, ⟨"b", 1⟩, ⟨"c", 1⟩, ⟨"d", 1⟩, ⟨"e", 1⟩, ⟨"f", 1⟩, ⟨"g", 1⟩, ⟨"h", 1⟩,
    ⟨"i", 1⟩, ⟨"j", 1⟩, ⟨"k", 1⟩]

/-- Eleven entries in alphabetical order with count 1 for a to j and k:3. -/
def lateArray : List WordEntry :=
  [⟨"a", 1⟩, ⟨"b", 1⟩, ⟨"c", 1⟩, ⟨"d", 1⟩, ⟨"e", 1⟩, ⟨"f", 1⟩, ⟨"g", 1⟩, ⟨"h", 1⟩,
    ⟨"i", 1⟩, ⟨"j", 1⟩, ⟨"k", 3⟩]

/-- Eleven entries in alphabetical order with count 2 for a to j and k:1. -/
def rareLastArray : List WordEntry :=
  [⟨"a", 2⟩, ⟨"b", 2⟩, ⟨"c", 2⟩, ⟨"d", 2⟩, ⟨"e", 2⟩, ⟨"f", 2⟩, ⟨"g", 2⟩, ⟨"h", 2⟩,
    ⟨"i", 2⟩, ⟨"j", 2⟩, ⟨"k", 1⟩]

/-- The six entries of the top-5 example of the specification. -/
def sixArray : List WordEntry :=
  [⟨"a", 5⟩, ⟨"b", 5⟩, ⟨"c", 3⟩, ⟨"d", 1⟩, ⟨"e", 1⟩, ⟨"f", 1⟩]

/-! ## 32-bit arithmetic -/

theorem wrapInt_of_range {x : Int} (h1 : -2147483648 ≤ x) (h2 : x < 2147483648) :
    wrapInt x = x := by
  unfold wrapInt
  omega

theorem wrapInt_succ (x : Int) : wrapInt (wrapInt x + 1) = wrapInt (x + 1) := by
  unfold wrapInt
  omega

/-! ## The order on words -/

theorem char_eq_of_toNat_eq {a b : Char} (h : a.toNat = b.toNat) : a = b := by
  apply Char.ext
  cases a with | mk va ha => cases b with | mk vb hb =>
  simp only [Char.toNat] at h
  cases va with | mk va => cases vb with | mk vb =>
  simp only [UInt32.toNat] at h
  exact congrArg UInt32.mk (BitVec.eq_of_toNat_eq h)

theorem strLt_irrefl : ∀ a : List Char, strLt a a = false
  | [] => rfl
  | a :: as => by simp [strLt, strLt_irrefl as]

theorem strLt_trans : ∀ a b c : List Char,
    strLt a b = true → strLt b c = true → strLt a c = true
  | _, [], _ => by simp [strLt]
  | _, _ :: _, [] => by simp [strLt]
  | [], _ :: _, _ :: _ => by simp [strLt]
  | x :: xs, y :: ys, z :: zs => by
    intro h1 h2
    simp only [strLt] at h1 h2 ⊢
    split_ifs at h1 h2 ⊢ <;> first
      | rfl
      | omega
      | exact strLt_trans xs ys zs h1 h2

theorem strLt_total : ∀ a b : List Char,
    strLt a b = false → strLt b a = false → a = b
  | [], [] => fun _ _ => rfl
  | [], _ :: _ => by simp [strLt]
  | _ :: _, [] => by simp [strLt]
  | x :: xs, y :: ys => by
    intro h1 h2
    simp only [strLt] at h1 h2
    split_ifs at h1 h2 with c1 c2 c3 c4 c5 c6 <;> first
      | omega
      | (rw [char_eq_of_toNat_eq c2, strLt_total xs ys h1 h2])

namespace WordEntry

theorem gt_eq_lt (a b : WordEntry) : a.gt b = b.lt a := rfl

theorem lt_irrefl (a : WordEntry) : a.lt a = false := strLt_irrefl _

theorem lt_trans {a b c : WordEntry} (h1 : a.lt b = true) (h2 : b.lt c = true) :
    a.lt c = true := strLt_trans _ _ _ h1 h2

theorem lt_asymm {a b : WordEntry} (h : a.lt b = true) : b.lt a = false := by
  cases hb : b.lt a with
  | false => rfl
  | true => have := lt_trans h hb; rw [lt_irrefl] at this; cases this

theorem word_eq_of_not_lt {a b : WordEntry} (h1 : a.lt b = false) (h2 : b.lt a = false) :
    a.word = b.word := by
  have := strLt_total _ _ h1 h2
  cases ha : a.word; cases hb : b.word
  simp_all

theorem lt_of_word_eq_left {a b c : WordEntry} (h : a.word = b.word) : a.lt c = b.lt c := by
  simp [lt, h]

theorem lt_of_word_eq_right {a b c : WordEntry} (h : a.word = b.word) : c.lt a = c.lt b := by
  simp [lt, h]

theorem lt_ne {a b : WordEntry} (h : a.lt b = true) : a.word ≠ b.word := by
  intro he
  rw [lt_of_word_eq_left he, lt_irrefl] at h
  cases h

theorem eq_iff (a b : WordEntry) : a.eq b = true ↔ a.word = b.word := by
  constructor
  · intro h
    simp only [eq, gt_eq_lt, Bool.and_eq_true, Bool.not_eq_true'] at h
    exact word_eq_of_not_lt h.1 h.2
  · intro h
    simp [eq, gt_eq_lt, lt_of_word_eq_left h, lt_of_word_eq_right h, lt_irrefl]

@[simp] theorem addAssign_word (a : WordEntry) (n : Int) : (a.addAssign n).word = a.word := rfl

@[simp] theorem addAssign_frequency (a : WordEntry) (n : Int) :
    (a.addAssign n).frequency = wrapInt (a.frequency + n) := rfl

end WordEntry

/-! ## Trees and the store -/

namespace Tree

theorem Rep.frame {h h' : Heap} : ∀ {T : Tree} {p : Option Nat}, T.Rep h p →
    (∀ i ∈ T.addrs, h'[i]? = h[i]?) → T.Rep h' p
  | nil, _, hp, _ => hp
  | node l a e r, _, ⟨hp, lp, rp, hc, hl, hr⟩, hf => by
    refine ⟨hp, lp, rp, ?_, ?_, ?_⟩
    · rw [hf a (by simp [addrs])]; exact hc
    · exact Rep.frame hl (fun i hi => hf i (by simp [addrs, hi]))
    · exact Rep.frame hr (fun i hi => hf i (by simp [addrs, hi]))

theorem Rep.addr_lt {h : Heap} : ∀ {T : Tree} {p : Option Nat}, T.Rep h p →
    ∀ i ∈ T.addrs, i < h.length
  | nil, _, _, i, hi => by simp [addrs] at hi
  | node l a e r, _, ⟨_, lp, rp, hc, hl, hr⟩, i, hi => by
    simp only [addrs, List.mem_append, List.mem_cons] at hi
    rcases hi with hi | hi | hi
    · exact Rep.addr_lt hl i hi
    · subst hi
      by_contra hlt
      rw [List.getElem?_eq_none (by omega)] at hc
      cases hc
    · exact Rep.addr_lt hr i hi

theorem length_addrs : ∀ T : Tree, T.addrs.length = T.toList.length
  | nil => rfl
  | node l a e r => by simp [addrs, toList, length_addrs l, length_addrs r]

theorem height_le : ∀ T : Tree, T.height ≤ T.toList.length
  | nil => Nat.le_refl _
  | node l a e r => by
    have := height_le l
    have := height_le r
    simp only [height, toList, List.length_append, List.length_cons]
    omega

theorem Rep.length_le {h : Heap} {T : Tree} {p : Option Nat} (hr : T.Rep h p)
    (hn : T.addrs.Nodup) : T.toList.length ≤ h.length := by
  have hs : T.addrs ⊆ List.range h.length := fun i hi =>
    List.mem_range.mpr (hr.addr_lt i hi)
  have := (List.subperm_of_subset hn hs).length_le
  rwa [length_addrs, List.length_range] at this

theorem mem_addrs_ins {d : WordEntry} {n : Nat} : ∀ {T : Tree} {i : Nat},
    i ∈ (T.ins d n).addrs → i = n ∨ i ∈ T.addrs
  | nil, i, hi => by simpa [ins, addrs] using hi
  | node l a e r, i, hi => by
    simp only [ins] at hi
    split_ifs at hi
    · simp only [addrs, List.mem_append, List.mem_cons] at hi ⊢
      rcases hi with hi | hi | hi
      · tauto
      · tauto
      · rcases mem_addrs_ins hi with h | h <;> tauto
    · simp only [addrs, List.mem_append, List.mem_cons] at hi ⊢
      rcases hi with hi | hi | hi
      · rcases mem_addrs_ins hi with h | h <;> tauto
      · tauto
      · tauto
    · simp only [addrs, List.mem_append, List.mem_cons] at hi ⊢
      tauto

theorem nodup_addrs_ins {d : WordEntry} {n : Nat} : ∀ {T : Tree},
    T.addrs.Nodup → n ∉ T.addrs → (T.ins d n).addrs.Nodup
  | nil, _, _ => by simp [ins, addrs]
  | node l a e r, hn, hni => by
    simp only [addrs, List.mem_append, List.mem_cons, not_or] at hni
    have hn' := hn
    simp only [addrs, List.nodup_append, List.nodup_cons, List.Disjoint, List.mem_cons] at hn'
    obtain ⟨hl, ⟨har, hr⟩, hd⟩ := hn'
    simp only [ins]
    split_ifs
    · simp only [addrs, List.nodup_append, List.nodup_cons, List.Disjoint, List.mem_cons]
      refine ⟨hl, ⟨?_, nodup_addrs_ins hr hni.2.2⟩, ?_⟩
      · intro hc
        rcases mem_addrs_ins hc with h | h
        · exact hni.2.1 h.symm
        · exact har h
      · intro i hil hir
        rcases hir with hir | hir
        · exact hd hil (Or.inl hir)
        · rcases mem_addrs_ins hir with h | h
          · exact hni.1 (h ▸ hil)
          · exact hd hil (Or.inr h)
    · simp only [addrs, List.nodup_append, List.nodup_cons, List.Disjoint, List.mem_cons]
      refine ⟨nodup_addrs_ins hl hni.1, ⟨har, hr⟩, ?_⟩
      intro i hil hir
      rcases mem_addrs_ins hil with h | h
      · rcases hir with hir | hir
        · exact hni.2.1 (h ▸ hir)
        · exact hni.2.2 (h ▸ hir)
      · exact hd h hir
    · simpa [addrs] using hn

end Tree

/-! ## `insert` on a represented tree -/

namespace BST

theorem deref_cell {h : Heap} {a : Nat} {nd : Node} (hc : h[a]? = some (some nd)) :
    deref h (some a) = .ok nd := by
  simp [deref, hc]

/-- Attaching a new node below a parent whose key is smaller: the parent's right
link is written. -/
theorem insertHelper_attach_right (t : BST) (d e : WordEntry) (a r0 fuel : Nat)
    (lp rp : Option Nat) (hroot : t.root = some r0)
    (hc : t.heap[a]? = some (some ⟨e, lp, rp⟩)) (hlt : e.lt d = true) :
    insertHelper (fuel + 1) t (some a) none d =
      .ok { t with
        heap := (t.heap ++ [some (⟨d, none, none⟩ : Node)]).set a (some ⟨e, lp, some t.heap.length⟩)
        numNodes := t.numNodes + 1 } := by
  have ha : a < t.heap.length := by
    by_contra hlt
    rw [List.getElem?_eq_none (by omega)] at hc
    cases hc
  have hc' : (t.heap ++ [some (⟨d, none, none⟩ : Node)])[a]? = some (some ⟨e, lp, rp⟩) := by
    rw [List.getElem?_append_left ha]; exact hc
  simp [insertHelper, hroot, deref, hc', hlt]

/-- Attaching a new node below a parent whose key is greater: the parent's left
link is written. -/
theorem insertHelper_attach_left (t : BST) (d e : WordEntry) (a r0 fuel : Nat)
    (lp rp : Option Nat) (hroot : t.root = some r0)
    (hc : t.heap[a]? = some (some ⟨e, lp, rp⟩)) (hlt : e.lt d = false)
    (hgt : e.gt d = true) :
    insertHelper (fuel + 1) t (some a) none d =
      .ok { t with
        heap := (t.heap ++ [some (⟨d, none, none⟩ : Node)]).set a (some ⟨e, some t.heap.length, rp⟩)
        numNodes := t.numNodes + 1 } := by
  have ha : a < t.heap.length := by
    by_contra hlt
    rw [List.getElem?_eq_none (by omega)] at hc
    cases hc
  have hc' : (t.heap ++ [some (⟨d, none, none⟩ : Node)])[a]? = some (some ⟨e, lp, rp⟩) := by
    rw [List.getElem?_append_left ha]; exact hc
  simp [insertHelper, hroot, deref, hc', hlt, hgt]


theorem cell_lt {h : Heap} {a : Nat} {nd : Node} (hc : h[a]? = some (some nd)) :
    a < h.length := by
  by_contra hlt
  rw [List.getElem?_eq_none (by omega)] at hc
  cases hc

/-- The recursive descent of `insertHelper` from a node of a represented tree:
it returns, the store then represents the tree with the entry inserted (the new
cell, if any, at the end of the store), and nothing outside the subtree is
written. -/
theorem insertHelper_node (t : BST) (d : WordEntry) (r0 : Nat) (hroot : t.root = some r0) :
    ∀ (T : Tree) (a : Nat) (p : Option Nat) (fuel : Nat),
      T.Rep t.heap (some a) → T.addrs.Nodup → T.height < fuel →
      ∃ h1 : Heap,
        insertHelper fuel t p (some a) d =
          .ok { t with
            heap := h1
            numNodes := t.numNodes + ((T.ins d t.heap.length).toList.length - T.toList.length) } ∧
        (T.ins d t.heap.length).Rep h1 (some a) ∧
        (∀ i, i ∉ T.addrs → i < t.heap.length → h1[i]? = t.heap[i]?) := by
  intro T
  induction T with
  | nil => intro a p fuel hrep; cases hrep
  | node l a e r ihl ihr =>
    intro a1 p fuel hrep hnd hfuel
    obtain ⟨ha, lp, rp, hc, hl, hr⟩ := hrep
    cases ha
    have halt := cell_lt hc
    have hnd0 := hnd
    simp only [Tree.addrs, List.nodup_append, List.nodup_cons, List.Disjoint, List.mem_cons] at hnd0
    obtain ⟨hndl, ⟨har, hndr⟩, hdisj⟩ := hnd0
    have hal : a ∉ l.addrs := fun h => hdisj h (Or.inl rfl)
    cases fuel with
    | zero => omega
    | succ fuel =>
    simp only [Tree.height] at hfuel
    rw [insertHelper]
    simp only [deref_cell hc]
    by_cases hgt : d.gt e = true
    · -- descend to the right
      simp only [hgt, if_true, Tree.ins]
      cases r with
      | nil =>
        cases hr
        cases fuel with
        | zero => omega
        | succ fuel =>
        refine ⟨(t.heap ++ [some (⟨d, none, none⟩ : Node)]).set a
          (some ⟨e, lp, some t.heap.length⟩), ?_, ?_, ?_⟩
        · rw [insertHelper_attach_right t d e a r0 fuel lp none hroot hc hgt]
          simp [Tree.toList]
        · refine ⟨rfl, lp, some t.heap.length, ?_, ?_, ?_⟩
          · rw [List.getElem?_set_self (by simp; omega)]
          · refine Tree.Rep.frame hl (fun i hi => ?_)
            have hil := hl.addr_lt i hi
            have hia : a ≠ i := fun h => hal (h ▸ hi)
            rw [List.getElem?_set_ne hia, List.getElem?_append_left hil]
          · refine ⟨rfl, none, none, ?_, rfl, rfl⟩
            rw [List.getElem?_set_ne (by omega)]
            simp
        · intro i hi hil
          have hia : a ≠ i := fun h => hi (by simp [Tree.addrs, h])
          rw [List.getElem?_set_ne hia, List.getElem?_append_left hil]
      | node rl ra re rr =>
        have hra : rp = some ra := hr.1
        subst hra
        obtain ⟨h1, hrun, hrep1, hframe⟩ :=
          ihr ra (some a) fuel hr hndr (by simp only [Tree.height] at hfuel ⊢; omega)
        refine ⟨h1, ?_, ?_, ?_⟩
        · rw [hrun]
          simp only [Tree.toList, List.length_append, List.length_cons]
          congr 2
          omega
        · refine ⟨rfl, lp, some ra, ?_, ?_, hrep1⟩
          · rw [hframe a har halt]; exact hc
          · refine Tree.Rep.frame hl (fun i hi => ?_)
            exact hframe i (fun h => hdisj hi (Or.inr h)) (hl.addr_lt i hi)
        · intro i hi hil
          exact hframe i (fun h => hi (by rw [Tree.addrs]; simp [h])) hil
    · simp only [hgt, Tree.ins]
      by_cases hlt : d.lt e = true
      · -- descend to the left
        simp only [Bool.not_eq_true] at hgt
        simp only [hgt, hlt, if_true, Bool.false_eq_true, if_false]
        cases l with
        | nil =>
          cases hl
          cases fuel with
          | zero => omega
          | succ fuel =>
          refine ⟨(t.heap ++ [some (⟨d, none, none⟩ : Node)]).set a
            (some ⟨e, some t.heap.length, rp⟩), ?_, ?_, ?_⟩
          · rw [insertHelper_attach_left t d e a r0 fuel none rp hroot hc hgt hlt]
            simp [Tree.toList]
          · refine ⟨rfl, some t.heap.length, rp, ?_, ?_, ?_⟩
            · rw [List.getElem?_set_self (by simp; omega)]
            · refine ⟨rfl, none, none, ?_, rfl, rfl⟩
              rw [List.getElem?_set_ne (by omega)]
              simp
            · refine Tree.Rep.frame hr (fun i hi => ?_)
              have hil := hr.addr_lt i hi
              have hia : a ≠ i := fun h => har (h ▸ hi)
              rw [List.getElem?_set_ne hia, List.getElem?_append_left hil]
          · intro i hi hil
            have hia : a ≠ i := fun h => hi (by simp [Tree.addrs, h])
            rw [List.getElem?_set_ne hia, List.getElem?_append_left hil]
        | node ll la le lr =>
          have hla : lp = some la := hl.1
          subst hla
          obtain ⟨h1, hrun, hrep1, hframe⟩ :=
            ihl la (some a) fuel hl hndl (by simp only [Tree.height] at hfuel ⊢; omega)
          refine ⟨h1, ?_, ?_, ?_⟩
          · rw [hrun]
            have hlen : (Tree.node (Tree.ins d t.heap.length (ll.node la le lr)) a e r).toList.length
                  - ((ll.node la le lr).node a e r).toList.length
                = (Tree.ins d t.heap.length (ll.node la le lr)).toList.length
                  - (ll.node la le lr).toList.length := by
              generalize Tree.ins d t.heap.length (ll.node la le lr) = X
              generalize ll.node la le lr = Y
              simp only [Tree.toList, List.length_append, List.length_cons]
              omega
            rw [hlen]
          · refine ⟨rfl, some la, rp, ?_, hrep1, ?_⟩
            · rw [hframe a hal halt]; exact hc
            · refine Tree.Rep.frame hr (fun i hi => ?_)
              exact hframe i (fun h => hdisj h (Or.inr hi)) (hr.addr_lt i hi)
          · intro i hi hil
            exact hframe i (fun h => hi (by rw [Tree.addrs]; simp [h])) hil
      · -- the key is here: increment
        simp only [hlt]
        refine ⟨t.heap.set a (some ⟨e.addAssign 1, lp, rp⟩), ?_, ?_, ?_⟩
        · simp [Tree.toList]
        · refine ⟨rfl, lp, rp, ?_, ?_, ?_⟩
          · rw [List.getElem?_set_self halt]
          · refine Tree.Rep.frame hl (fun i hi => ?_)
            have hia : a ≠ i := fun h => hal (h ▸ hi)
            rw [List.getElem?_set_ne hia]
          · refine Tree.Rep.frame hr (fun i hi => ?_)
            have hia : a ≠ i := fun h => har (h ▸ hi)
            rw [List.getElem?_set_ne hia]
        · intro i hi _
          have hia : a ≠ i := fun h => hi (by simp [Tree.addrs, h])
          rw [List.getElem?_set_ne hia]

end BST

/-! ## Insert-or-increment on sorted sequences -/

theorem linsert_append_of_gt (d : WordEntry) : ∀ (xs ys : List WordEntry),
    (∀ x ∈ xs, d.gt x = true) → linsert d (xs ++ ys) = xs ++ linsert d ys
  | [], _, _ => rfl
  | x :: xs, ys, h => by
    have hx : d.gt x = true := h x (by simp)
    have ih := linsert_append_of_gt d xs ys (fun y hy => h y (by simp [hy]))
    simp only [List.cons_append, linsert, hx, if_true]
    exact congrArg (x :: ·) ih

theorem linsert_append_of_lt (d e : WordEntry) (he : d.lt e = true) :
    ∀ (xs ys : List WordEntry), linsert d (xs ++ e :: ys) = linsert d xs ++ e :: ys
  | [], ys => by
    have : d.gt e = false := WordEntry.lt_asymm he
    simp [linsert, this, he]
  | x :: xs, ys => by
    have ih := linsert_append_of_lt d e he xs ys
    simp only [List.cons_append, linsert]
    split_ifs
    · exact congrArg (x :: ·) ih
    · rfl
    · rfl

theorem mem_linsert_imp {d x : WordEntry} : ∀ {L : List WordEntry},
    x ∈ linsert d L → x.word = d.word ∨ x ∈ L
  | [], h => by simp [linsert] at h; exact Or.inl (h ▸ rfl)
  | e :: es, h => by
    simp only [linsert] at h
    split_ifs at h with h1 h2
    · rcases List.mem_cons.mp h with h | h
      · exact Or.inr (h ▸ List.mem_cons_self _ _)
      · rcases mem_linsert_imp h with h | h
        · exact Or.inl h
        · exact Or.inr (List.mem_cons_of_mem _ h)
    · rcases List.mem_cons.mp h with h | h
      · exact Or.inl (h ▸ rfl)
      · exact Or.inr h
    · rcases List.mem_cons.mp h with h | h
      · left
        rw [h, WordEntry.addAssign_word]
        simp only [Bool.not_eq_true] at h1 h2
        exact (WordEntry.word_eq_of_not_lt h2 h1).symm
      · exact Or.inr (List.mem_cons_of_mem _ h)

theorem pairwise_linsert (d : WordEntry) : ∀ {L : List WordEntry},
    L.Pairwise (fun a b => a.lt b = true) → (linsert d L).Pairwise (fun a b => a.lt b = true)
  | [], _ => by simp [linsert]
  | e :: es, h => by
    obtain ⟨he, hes⟩ := List.pairwise_cons.mp h
    simp only [linsert]
    split_ifs with h1 h2
    · refine List.pairwise_cons.mpr ⟨?_, pairwise_linsert d hes⟩
      intro x hx
      rcases mem_linsert_imp hx with hx | hx
      · rw [WordEntry.lt_of_word_eq_right hx]; exact h1
      · exact he x hx
    · refine List.pairwise_cons.mpr ⟨?_, h⟩
      intro x hx
      rcases List.mem_cons.mp hx with hx | hx
      · exact hx ▸ h2
      · exact WordEntry.lt_trans h2 (he x hx)
    · refine List.pairwise_cons.mpr ⟨?_, hes⟩
      intro x hx
      exact he x hx

/-- What `linsert` does to a strictly ascending sequence: entries with another key
stay, the entry with the key (if any) gains `1`, and the inserted entry appears
as given when its key is new. -/
theorem mem_linsert {d x : WordEntry} : ∀ {L : List WordEntry},
    L.Pairwise (fun a b => a.lt b = true) →
    (x ∈ linsert d L ↔
      (x ∈ L ∧ x.word ≠ d.word) ∨ (∃ e ∈ L, e.word = d.word ∧ x = e.addAssign 1) ∨
      (x = d ∧ ∀ e ∈ L, e.word ≠ d.word))
  | [], _ => by simp [linsert]
  | e :: es, h => by
    obtain ⟨he, hes⟩ := List.pairwise_cons.mp h
    have ih := mem_linsert (d := d) (x := x) hes
    simp only [linsert]
    split_ifs with h1 h2
    · -- e < d
      have hne : e.word ≠ d.word := WordEntry.lt_ne h1
      rw [List.mem_cons, ih]
      constructor
      · rintro (rfl | ⟨hx, hxn⟩ | ⟨e', he', hw, rfl⟩ | ⟨rfl, hall⟩)
        · exact Or.inl ⟨List.mem_cons_self _ _, hne⟩
        · exact Or.inl ⟨List.mem_cons_of_mem _ hx, hxn⟩
        · exact Or.inr (Or.inl ⟨e', List.mem_cons_of_mem _ he', hw, rfl⟩)
        · refine Or.inr (Or.inr ⟨rfl, ?_⟩)
          intro e' he'
          rcases List.mem_cons.mp he' with rfl | he'
          · exact hne
          · exact hall e' he'
      · rintro (⟨hx, hxn⟩ | ⟨e', he', hw, rfl⟩ | ⟨rfl, hall⟩)
        · rcases List.mem_cons.mp hx with rfl | hx
          · exact Or.inl rfl
          · exact Or.inr (Or.inl ⟨hx, hxn⟩)
        · rcases List.mem_cons.mp he' with rfl | he'
          · exact absurd hw hne
          · exact Or.inr (Or.inr (Or.inl ⟨e', he', hw, rfl⟩))
        · exact Or.inr (Or.inr (Or.inr ⟨rfl, fun e' he' => hall e' (List.mem_cons_of_mem _ he')⟩))
    · -- d < e: every entry of the sequence is greater than d
      have hall : ∀ y ∈ e :: es, y.word ≠ d.word := by
        intro y hy
        rcases List.mem_cons.mp hy with rfl | hy
        · exact (WordEntry.lt_ne h2).symm
        · exact (WordEntry.lt_ne (WordEntry.lt_trans h2 (he y hy))).symm
      rw [List.mem_cons]
      constructor
      · rintro (rfl | hx)
        · exact Or.inr (Or.inr ⟨rfl, hall⟩)
        · exact Or.inl ⟨hx, hall x hx⟩
      · rintro (⟨hx, _⟩ | ⟨e', he', hw, _⟩ | ⟨rfl, _⟩)
        · exact Or.inr hx
        · exact absurd hw (hall e' he')
        · exact Or.inl rfl
    · -- same key
      simp only [Bool.not_eq_true] at h1 h2
      have hw : e.word = d.word := (WordEntry.word_eq_of_not_lt h2 h1).symm
      have hes' : ∀ y ∈ es, y.word ≠ d.word := by
        intro y hy
        have := he y hy
        rw [WordEntry.lt_of_word_eq_left hw] at this
        exact (WordEntry.lt_ne this).symm
      rw [List.mem_cons]
      constructor
      · rintro (rfl | hx)
        · exact Or.inr (Or.inl ⟨e, List.mem_cons_self _ _, hw, rfl⟩)
        · exact Or.inl ⟨List.mem_cons_of_mem _ hx, hes' x hx⟩
      · rintro (⟨hx, hxn⟩ | ⟨e', he', hw', rfl⟩ | ⟨rfl, hall⟩)
        · rcases List.mem_cons.mp hx with rfl | hx
          · exact absurd hw hxn
          · exact Or.inr hx
        · rcases List.mem_cons.mp he' with rfl | he'
          · exact Or.inl rfl
          · exact absurd hw' (hes' e' he')
        · exact absurd hw (hall e (List.mem_cons_self _ _))

/-- The sequence grows by one entry exactly when the key is new. -/
theorem length_linsert (d : WordEntry) : ∀ {L : List WordEntry},
    L.Pairwise (fun a b => a.lt b = true) →
    (linsert d L).length = if ∃ e ∈ L, e.word = d.word then L.length else L.length + 1
  | [], _ => by simp [linsert]
  | e :: es, h => by
    obtain ⟨he, hes⟩ := List.pairwise_cons.mp h
    simp only [linsert]
    split_ifs with h1 h2 h3 h4 h5
    · simp only [List.length_cons, length_linsert d hes]
      obtain ⟨e', he', hw⟩ := h2
      rcases List.mem_cons.mp he' with rfl | he'
      · exact absurd hw (WordEntry.lt_ne h1)
      · rw [if_pos ⟨e', he', hw⟩]
    · simp only [List.length_cons, length_linsert d hes]
      rw [if_neg]
      rintro ⟨e', he', hw⟩
      exact h2 ⟨e', List.mem_cons_of_mem _ he', hw⟩
    · exfalso
      obtain ⟨e', he', hw⟩ := h4
      rcases List.mem_cons.mp he' with rfl | he'
      · exact WordEntry.lt_ne h3 hw.symm
      · exact WordEntry.lt_ne (WordEntry.lt_trans h3 (he e' he')) hw.symm
    · rfl
    · rfl
    · exfalso
      simp only [Bool.not_eq_true] at h1 h3
      exact h5 ⟨e, List.mem_cons_self _ _, (WordEntry.word_eq_of_not_lt h3 h1).symm⟩

/-! ## Ordered trees -/

namespace Tree

theorem Ordered.pairwise : ∀ {T : Tree}, T.Ordered →
    T.toList.Pairwise (fun a b => a.lt b = true)
  | nil, _ => List.Pairwise.nil
  | node l a e r, ⟨hl, hr, hle, her⟩ => by
    simp only [toList]
    refine List.pairwise_append.mpr ⟨hl.pairwise, ?_, ?_⟩
    · exact List.pairwise_cons.mpr ⟨her, hr.pairwise⟩
    · intro x hx y hy
      rcases List.mem_cons.mp hy with rfl | hy
      · exact hle x hx
      · exact WordEntry.lt_trans (hle x hx) (her y hy)

/-- On an ordered tree, tree insertion is insertion into the in-order sequence. -/
theorem toList_ins (d : WordEntry) (n : Nat) : ∀ {T : Tree}, T.Ordered →
    (T.ins d n).toList = linsert d T.toList
  | nil, _ => rfl
  | node l a e r, ⟨hl, hr, hle, her⟩ => by
    simp only [ins]
    split_ifs with h1 h2
    · -- e < d: the walk passes the left subtree and the node
      simp only [toList, toList_ins d n hr]
      rw [linsert_append_of_gt d l.toList _
        (fun x hx => WordEntry.lt_trans (hle x hx) h1)]
      simp [linsert, h1]
    · simp only [toList, toList_ins d n hl]
      rw [linsert_append_of_lt d e h2]
    · simp only [Bool.not_eq_true] at h1 h2
      have hw : e.word = d.word := (WordEntry.word_eq_of_not_lt h2 h1).symm
      simp only [toList]
      rw [linsert_append_of_gt d l.toList _
        (fun x hx => by
          have := hle x hx
          rwa [WordEntry.lt_of_word_eq_right hw] at this)]
      simp [linsert, h1, h2]

theorem ordered_ins (d : WordEntry) (n : Nat) : ∀ {T : Tree}, T.Ordered →
    (T.ins d n).Ordered
  | nil, _ => by simp [ins, Ordered, toList]
  | node l a e r, h => by
    obtain ⟨hl, hr, hle, her⟩ := h
    simp only [ins]
    split_ifs with h1 h2
    · refine ⟨hl, ordered_ins d n hr, hle, ?_⟩
      intro x hx
      rw [toList_ins d n hr] at hx
      rcases mem_linsert_imp hx with hx | hx
      · rw [WordEntry.lt_of_word_eq_right hx]; exact h1
      · exact her x hx
    · refine ⟨ordered_ins d n hl, hr, ?_, her⟩
      intro x hx
      rw [toList_ins d n hl] at hx
      rcases mem_linsert_imp hx with hx | hx
      · rw [WordEntry.lt_of_word_eq_left hx]; exact h2
      · exact hle x hx
    · exact ⟨hl, hr, fun x hx => hle x hx, fun x hx => her x hx⟩

/-- The walk of `lookup` finds the entry with the key of `d`, if the tree holds
one. -/
theorem lookup_some {d : WordEntry} : ∀ {T : Tree} {a : Nat} {e : WordEntry},
    T.lookup d = some (a, e) → e ∈ T.toList ∧ e.word = d.word
  | node l a0 e0 r, a, e, h => by
    simp only [lookup] at h
    split_ifs at h with h1 h2
    · cases h
      exact ⟨by simp [toList], (WordEntry.eq_iff _ _).mp h1⟩
    · have := lookup_some h
      exact ⟨by simp [toList, this.1], this.2⟩
    · have := lookup_some h
      exact ⟨by simp [toList, this.1], this.2⟩

theorem lookup_none {d : WordEntry} : ∀ {T : Tree}, T.Ordered →
    T.lookup d = none → ∀ e ∈ T.toList, e.word ≠ d.word
  | nil, _, _, e, he => by simp [toList] at he
  | node l a0 e0 r, ⟨hl, hr, hle, her⟩, h, e, he => by
    simp only [lookup] at h
    have key : ∀ {x y : WordEntry}, x.lt y = true → x.word ≠ y.word := WordEntry.lt_ne
    split_ifs at h with h1 h2
    · -- d < e0: the key is not at the node and not to the right
      have hd : d.lt e0 = true := h2
      simp only [toList, List.mem_append, List.mem_cons] at he
      rcases he with he | rfl | he
      · exact lookup_none hl h e he
      · exact (key hd).symm
      · exact (key (WordEntry.lt_trans hd (her e he))).symm
    · -- e0 < d
      have hd : e0.lt d = true := by
        simp only [WordEntry.eq, WordEntry.gt_eq_lt, Bool.and_eq_true, Bool.not_eq_true',
          not_and, Bool.not_eq_false, Bool.not_eq_true] at h1 h2
        cases hc : e0.lt d with
        | true => rfl
        | false => rw [h1 hc] at h2; cases h2
      simp only [toList, List.mem_append, List.mem_cons] at he
      rcases he with he | rfl | he
      · exact key (WordEntry.lt_trans (hle e he) hd)
      · exact key hd
      · exact lookup_none hr h e he

theorem Rep.lookup_cell {h : Heap} {d : WordEntry} : ∀ {T : Tree} {p : Option Nat}
    {a : Nat} {e : WordEntry}, T.Rep h p → T.lookup d = some (a, e) →
    ∃ lp rp, h[a]? = some (some ⟨e, lp, rp⟩)
  | node l a0 e0 r, _, a, e, ⟨_, lp, rp, hc, hl, hr⟩, hk => by
    simp only [lookup] at hk
    split_ifs at hk
    · cases hk; exact ⟨lp, rp, hc⟩
    · exact hl.lookup_cell hk
    · exact hr.lookup_cell hk

end Tree

/-! ## The public methods on a well-formed tree -/

namespace BST

/-- `insert` on a well-formed tree returns, and the new state is well formed for
the tree with the entry inserted; the root pointer of a non-empty tree and the
cells outside the tree are not written. -/
theorem insert_inv {t : BST} {T : Tree} (h : Inv t T) (d : WordEntry) :
    ∃ t1, t.insert d = .ok t1 ∧ Inv t1 (T.ins d t.heap.length) := by
  obtain ⟨hrep, hnd, hord, hsize, hcur⟩ := h
  have hfresh : t.heap.length ∉ T.addrs := fun hm =>
    Nat.lt_irrefl _ (hrep.addr_lt _ hm)
  have hlen := length_linsert d hord.pairwise
  cases T with
  | nil =>
    have hroot : t.root = none := hrep
    refine ⟨⟨t.heap ++ [some ⟨d, none, none⟩], some t.heap.length, t.numNodes + 1,
      t.toArrayIndex⟩, ?_, ?_⟩
    · simp [insert, insertHelper, hroot]
    · refine ⟨?_, Tree.nodup_addrs_ins hnd hfresh, Tree.ordered_ins d _ hord, ?_, hcur⟩
      · exact ⟨rfl, none, none, by simp, rfl, rfl⟩
      · simp [Tree.ins, Tree.toList, hsize]
  | node l a e r =>
    have hroot : t.root = some a := hrep.1
    have hfuel : (Tree.node l a e r).height < t.heap.length + 1 :=
      Nat.lt_succ_of_le (Nat.le_trans (Tree.height_le _) (hrep.length_le hnd))
    rw [hroot] at hrep
    obtain ⟨h1, hrun, hrep1, -⟩ :=
      insertHelper_node t d a hroot (Tree.node l a e r) a (some a) _ hrep hnd hfuel
    rw [← hroot, ← insert] at hrun
    refine ⟨_, hrun, ?_, Tree.nodup_addrs_ins hnd hfresh, Tree.ordered_ins d _ hord, ?_, hcur⟩
    · simpa [hroot] using hrep1
    · show t.numNodes + _ = _
      rw [Tree.toList_ins d _ hord, hlen, hsize]
      split_ifs <;> omega

/-- Every reachable state is well formed. -/
theorem Reachable.inv {t : BST} (h : Reachable t) : ∃ T, Inv t T := by
  induction h with
  | new => exact ⟨Tree.nil, rfl, List.nodup_nil, trivial, rfl, rfl⟩
  | insert _ hins ih =>
    obtain ⟨T, hT⟩ := ih
    obtain ⟨t1, hrun, hinv⟩ := insert_inv hT _
    rw [hrun] at hins
    cases hins
    exact ⟨_, hinv⟩

/-- The loop of `find` on a represented tree ends at the node `lookup` names. -/
theorem findLoop_rep (h : Heap) (d : WordEntry) : ∀ (T : Tree) (p : Option Nat) (fuel : Nat),
    T.Rep h p → T.height < fuel →
    findLoop fuel h p d = .ok ((T.lookup d).map Prod.fst)
  | .nil, p, fuel, hrep, hf => by
    cases hrep
    cases fuel with
    | zero => simp [Tree.height] at hf
    | succ fuel => simp [findLoop, Tree.lookup]
  | .node l a e r, p, fuel, ⟨hp, lp, rp, hc, hl, hr⟩, hf => by
    cases hp
    cases fuel with
    | zero => simp at hf
    | succ fuel =>
      simp only [Tree.height] at hf
      rw [findLoop]
      simp only [deref_cell hc, Tree.lookup]
      by_cases h1 : e.eq d = true
      · simp [h1]
      · by_cases h2 : e.gt d = true
        · simp only [h1, h2, if_true, Bool.false_eq_true, if_false]
          exact findLoop_rep h d l lp fuel hl (by omega)
        · have h3 : e.lt d = true := by
            simp only [WordEntry.eq, Bool.and_eq_true, Bool.not_eq_true', not_and,
              Bool.not_eq_false, Bool.not_eq_true] at h1 h2
            cases hc : e.lt d with
            | true => rfl
            | false => rw [h1 hc] at h2; cases h2
          simp only [h1, h2, h3, if_true, Bool.false_eq_true, if_false]
          exact findLoop_rep h d r rp fuel hr (by omega)

/-- The in-order walk of `toArrayHelper` over a represented tree overwrites the
slice of the buffer that starts at the cursor with the in-order sequence and
advances the cursor by its length. -/
theorem toArrayHelper_rep : ∀ (T : Tree) (t : BST) (p : Option Nat) (fuel : Nat)
    (pre mid post : List WordEntry),
    T.Rep t.heap p → T.height < fuel → t.toArrayIndex = pre.length →
    mid.length = T.toList.length →
    toArrayHelper fuel t p (pre ++ mid ++ post) =
      .ok ({ t with toArrayIndex := t.toArrayIndex + T.toList.length },
        pre ++ T.toList ++ post)
  | .nil, t, p, fuel, pre, mid, post, hrep, hf, hidx, hmid => by
    cases hrep
    cases fuel with
    | zero => simp [Tree.height] at hf
    | succ fuel =>
      have : mid = [] := List.length_eq_zero.mp hmid
      subst this
      simp [toArrayHelper, Tree.toList]
  | .node l a e r, t, p, fuel, pre, mid, post, ⟨hp, lp, rp, hc, hl, hr⟩, hf, hidx, hmid => by
    cases hp
    cases fuel with
    | zero => simp at hf
    | succ fuel =>
      simp only [Tree.height] at hf
      simp only [Tree.toList, List.length_append, List.length_cons] at hmid
      -- split the slice into the parts for the left subtree, the node, the right subtree
      obtain ⟨ml, x, mr, rfl, hml, hmr⟩ : ∃ ml x mr, mid = ml ++ x :: mr ∧
          ml.length = l.toList.length ∧ mr.length = r.toList.length := by
        have hlt : l.toList.length < mid.length := by omega
        refine ⟨mid.take l.toList.length, mid[l.toList.length], mid.drop (l.toList.length + 1),
          ?_, ?_, ?_⟩
        · rw [← List.drop_eq_getElem_cons hlt, List.take_append_drop]
        · rw [List.length_take]; omega
        · rw [List.length_drop]; omega
      rw [toArrayHelper]
      simp only [deref_cell hc]
      have hleft := toArrayHelper_rep l t lp fuel pre ml (x :: mr ++ post) hl (by omega) hidx hml
      have e1 : pre ++ (ml ++ x :: mr) ++ post = pre ++ ml ++ (x :: mr ++ post) := by simp
      rw [e1, hleft]
      have hlen : t.toArrayIndex + l.toList.length = (pre ++ l.toList).length := by
        simp [hidx]
      have hin : t.toArrayIndex + l.toList.length < (pre ++ l.toList ++ (x :: mr ++ post)).length := by
        simp [hidx]
      simp only [hin, if_true]
      have hset : (pre ++ l.toList ++ (x :: mr ++ post)).set (t.toArrayIndex + l.toList.length) e
          = (pre ++ l.toList ++ [e]) ++ mr ++ post := by
        rw [hlen, List.set_append_right _ _ (Nat.le_refl _)]
        simp
      rw [hset]
      have hright := toArrayHelper_rep r
        { t with toArrayIndex := t.toArrayIndex + l.toList.length + 1 } rp fuel
        (pre ++ l.toList ++ [e]) mr post hr (by omega) (by simp [hidx]; omega) hmr
      rw [hright]
      simp only [Tree.toList, List.length_append, List.length_cons, List.append_assoc,
        List.singleton_append]
      congr 3
      omega

/-- On a well-formed tree `find` returns the address `lookup` names. -/
theorem find_inv {t : BST} {T : Tree} (h : Inv t T) (d : WordEntry) :
    t.find d = .ok ((T.lookup d).map Prod.fst) :=
  findLoop_rep t.heap d T t.root _ h.rep
    (Nat.lt_succ_of_le (Nat.le_trans (Tree.height_le _) (h.rep.length_le h.nodup)))

/-- On a well-formed tree `toArray` returns the in-order sequence and leaves the
state as it was. -/
theorem toArray_inv {t : BST} {T : Tree} (h : Inv t T) :
    t.toArray = .ok (t, T.toList) := by
  have hrun := toArrayHelper_rep T t t.root (t.heap.length + 1) []
    (List.replicate t.numNodes default) [] h.rep
    (Nat.lt_succ_of_le (Nat.le_trans (Tree.height_le _) (h.rep.length_le h.nodup)))
    h.cursor (by simp [h.size])
  simp only [List.nil_append, List.append_nil] at hrun
  rw [toArray, hrun]
  have hc := h.cursor
  cases t with
  | mk hp rt n i =>
    simp only at hc
    subst hc
    rfl

end BST

/-! ## Sequences of insertions -/

theorem Tally.nil : Tally [] [] :=
  ⟨List.Pairwise.nil, fun _ h => (by cases h), fun _ h => (by cases h)⟩

theorem Tally.step {L : List WordEntry} {ws : List String} (h : Tally L ws) (w : String) :
    Tally (linsert ⟨w, 1⟩ L) (ws ++ [w]) := by
  obtain ⟨hs, hsound, hcomp⟩ := h
  refine ⟨pairwise_linsert _ hs, ?_, ?_⟩
  · intro x hx
    rcases (mem_linsert hs).mp hx with ⟨hxL, hne⟩ | ⟨e, heL, hew, rfl⟩ | ⟨rfl, hall⟩
    · obtain ⟨h1, h2⟩ := hsound x hxL
      have hne' : w ≠ x.word := fun hc => hne hc.symm
      refine ⟨by simp [h1], ?_⟩
      simp [h2, List.count_append, List.count_cons, hne']
    · obtain ⟨h1, h2⟩ := hsound e heL
      have hew' : e.word = w := hew
      refine ⟨by simp [hew'], ?_⟩
      have hc : ((ws ++ [w]).count w : Int) = (ws.count w : Int) + 1 := by
        simp [List.count_append]
      rw [WordEntry.addAssign_frequency, WordEntry.addAssign_word, h2, hew', hc, wrapInt_succ]
    · have hnot : w ∉ ws := by
        intro hw
        obtain ⟨e, he, hew⟩ := hcomp w hw
        exact hall e he hew
      refine ⟨by simp, ?_⟩
      have hc : ((ws ++ [w]).count w : Int) = 1 := by
        simp [List.count_append, List.count_eq_zero_of_not_mem hnot]
      show (1 : Int) = wrapInt ((ws ++ [w]).count w : Int)
      rw [hc]
      rfl
  · intro v hv
    by_cases hex : ∃ e ∈ L, e.word = w
    · obtain ⟨e, he, hew⟩ := hex
      by_cases hvw : v = w
      · exact ⟨e.addAssign 1, (mem_linsert hs).mpr (Or.inr (Or.inl ⟨e, he, hew, rfl⟩)),
          by simp [hew, hvw]⟩
      · rcases List.mem_append.mp hv with hv | hv
        · obtain ⟨e', he', hew'⟩ := hcomp v hv
          exact ⟨e', (mem_linsert hs).mpr (Or.inl ⟨he', by
            show e'.word ≠ w
            rw [hew']; exact hvw⟩), hew'⟩
        · simp at hv; exact absurd hv hvw
    · have hall : ∀ e ∈ L, e.word ≠ w := fun e he hew => hex ⟨e, he, hew⟩
      rcases List.mem_append.mp hv with hv | hv
      · obtain ⟨e', he', hew'⟩ := hcomp v hv
        exact ⟨e', (mem_linsert hs).mpr (Or.inl ⟨he', hall e' he'⟩), hew'⟩
      · simp at hv
        exact ⟨⟨w, 1⟩, (mem_linsert hs).mpr (Or.inr (Or.inr ⟨rfl, hall⟩)), hv.symm⟩

/-- The number of entries is the number of distinct words. -/
theorem Tally.length {L : List WordEntry} {ws : List String} (h : Tally L ws) :
    L.length = ws.dedup.length := by
  have hnd : (L.map (·.word)).Nodup := by
    unfold List.Nodup
    rw [List.pairwise_map]
    exact h.sorted.imp (fun hab => WordEntry.lt_ne hab)
  have hperm : (L.map (·.word)).Perm ws.dedup := by
    refine (List.perm_ext_iff_of_nodup hnd (List.nodup_dedup ws)).mpr (fun w => ?_)
    rw [List.mem_dedup, List.mem_map]
    constructor
    · rintro ⟨e, he, rfl⟩; exact (h.sound e he).1
    · intro hw
      obtain ⟨e, he, hew⟩ := h.complete w hw
      exact ⟨e, he, hew⟩
  rw [← hperm.length_eq, List.length_map]

/-- Running `insertWords` from a well-formed state returns, the state stays well
formed, and the in-order sequence keeps tallying the words inserted so far. -/
theorem insertWords_inv : ∀ (ws : List String) {t : BST} {T : Tree} {hist : List String},
    Inv t T → Tally T.toList hist →
    ∃ t1 T1, insertWords t ws = .ok t1 ∧ Inv t1 T1 ∧ Tally T1.toList (hist ++ ws)
  | [], t, T, hist, hinv, htal => ⟨t, T, rfl, hinv, by simpa using htal⟩
  | w :: ws, t, T, hist, hinv, htal => by
    obtain ⟨t1, hrun, hinv1⟩ := BST.insert_inv hinv ⟨w, 1⟩
    have htal1 : Tally (T.ins ⟨w, 1⟩ t.heap.length).toList (hist ++ [w]) := by
      rw [Tree.toList_ins _ _ hinv.ordered]
      exact htal.step w
    obtain ⟨t2, T2, hrun2, hinv2, htal2⟩ := insertWords_inv ws hinv1 htal1
    refine ⟨t2, T2, ?_, hinv2, by simpa using htal2⟩
    simp only [insertWords, hrun, hrun2]

theorem inv_new : Inv BST.new Tree.nil :=
  ⟨rfl, List.nodup_nil, trivial, rfl, rfl⟩

/-- From the constructor, `insertWords` returns a well-formed state whose in-order
sequence tallies the words. -/
theorem insertWords_new (ws : List String) :
    ∃ t T, insertWords BST.new ws = .ok t ∧ Inv t T ∧ Tally T.toList ws := by
  obtain ⟨t, T, h1, h2, h3⟩ := insertWords_inv ws inv_new Tally.nil
  exact ⟨t, T, h1, h2, by simpa using h3⟩

theorem reachable_insertWords : ∀ (ws : List String) {t t1 : BST},
    Reachable t → insertWords t ws = .ok t1 → Reachable t1
  | [], t, t1, hr, h => by
    simp only [insertWords] at h
    cases h
    exact hr
  | w :: ws, t, t1, hr, h => by
    simp only [insertWords] at h
    cases hi : t.insert ⟨w, 1⟩ with
    | error e => rw [hi] at h; cases h
    | ok t2 =>
      rw [hi] at h
      exact reachable_insertWords ws (Reachable.insert hr hi) h

theorem sampleTree_eq : insertWords BST.new ["b", "a", "c"] = .ok sampleTree := rfl

theorem sampleTree_reachable : Reachable sampleTree :=
  reachable_insertWords _ Reachable.new sampleTree_eq

/-- A tree that holds the single entry `(w, x)`. -/
theorem insert_single (w : String) (x : Int) :
    (⟨[some ⟨⟨w, x⟩, none, none⟩], some 0, 1, 0⟩ : BST).insert ⟨w, 1⟩ =
      .ok ⟨[some ⟨⟨w, wrapInt (x + 1)⟩, none, none⟩], some 0, 1, 0⟩ := by
  have h : strLt w.data w.data = false := strLt_irrefl _
  simp [BST.insert, BST.insertHelper, deref, WordEntry.gt, WordEntry.lt, h,
    WordEntry.addAssign]

/-- Inserting a key that a strictly ascending sequence holds adds `1` to the
frequency of its entry and changes nothing else. -/
theorem linsert_of_mem {d : WordEntry} : ∀ {L : List WordEntry},
    L.Pairwise (fun a b => a.lt b = true) → (∃ e ∈ L, e.word = d.word) →
    linsert d L = L.map (fun x => if x.word = d.word then x.addAssign 1 else x)
  | [], _, ⟨_, he, _⟩ => by cases he
  | e :: es, h, ⟨e', he', hw'⟩ => by
    obtain ⟨he, hes⟩ := List.pairwise_cons.mp h
    simp only [linsert, List.map_cons]
    split_ifs with h1 h2 h3 h4 h5
    · exact absurd h2 (WordEntry.lt_ne h1)
    · rcases List.mem_cons.mp he' with rfl | he'
      · exact absurd hw' h2
      · rw [linsert_of_mem hes ⟨e', he', hw'⟩]
    · exfalso
      rcases List.mem_cons.mp he' with rfl | he'
      · exact WordEntry.lt_ne h3 hw'.symm
      · exact WordEntry.lt_ne (WordEntry.lt_trans h3 (he e' he')) hw'.symm
    · exfalso
      rcases List.mem_cons.mp he' with rfl | he'
      · exact WordEntry.lt_ne h3 hw'.symm
      · exact WordEntry.lt_ne (WordEntry.lt_trans h3 (he e' he')) hw'.symm
    · congr 1
      symm
      rw [List.map_congr_left (g := id), List.map_id]
      intro x hx
      have hlt := he x hx
      rw [WordEntry.lt_of_word_eq_left h5] at hlt
      simp [(WordEntry.lt_ne hlt).symm]
    · exfalso
      simp only [Bool.not_eq_true] at h1 h3
      exact h5 (WordEntry.word_eq_of_not_lt h3 h1).symm

/-- The state of a reachable tree determines its in-order sequence: `toArray`
returns the sequence of the tree that the state represents. -/
theorem toArray_eq_of_inv {t t1 : BST} {T : Tree} {arr : List WordEntry} (h : Inv t T)
    (ha : t.toArray = .ok (t1, arr)) : arr = T.toList := by
  rw [BST.toArray_inv h] at ha
  cases ha
  rfl

/-- C4 (as the code has it): for every BST reachable by insertions and every key
present in it, `insert` of that key leaves `count()` unchanged, leaves the key and
frequency of every other entry unchanged, and adds 1 to the key's frequency in
32-bit `int` arithmetic, which is an increase by exactly 1 whenever the frequency
is a valid `int` below `INT_MAX` = 2147483647; in particular inserting two entries
with the same key into an empty BST leaves `count()` at 1 and gives the key the
frequency of the first entry plus 1, which is 2 when the entries carry frequency
1, as those of `main` do. -/
theorem C4_insert_present :
    (∀ (t : BST) (d : WordEntry) (arr : List WordEntry), Reachable t →
        t.toArray = .ok (t, arr) → (∃ e ∈ arr, e.word = d.word) →
        ∃ t1, t.insert d = .ok t1 ∧ t1.count = t.count ∧
          t1.toArray =
            .ok (t1, arr.map (fun x => if x.word = d.word then x.addAssign 1 else x)) ∧
          ((∀ e ∈ arr, e.word = d.word →
              -2147483648 ≤ e.frequency ∧ e.frequency < 2147483647) →
            t1.toArray =
              .ok (t1, arr.map (fun x =>
                if x.word = d.word then ⟨x.word, x.frequency + 1⟩ else x)))) ∧
    (∀ d1 d2 : WordEntry, d1.word = d2.word →
        -2147483648 ≤ d1.frequency → d1.frequency < 2147483647 →
        ∃ t, insertAll BST.new [d1, d2] = .ok t ∧ t.count = 1 ∧
          t.toArray = .ok (t, [⟨d1.word, d1.frequency + 1⟩])) ∧
    (∀ w : String, ∃ t, insertWords BST.new [w, w] = .ok t ∧ t.count = 1 ∧
        t.toArray = .ok (t, [⟨w, 2⟩])) := by
  have main : ∀ (t : BST) (d : WordEntry) (arr : List WordEntry), Reachable t →
      t.toArray = .ok (t, arr) → (∃ e ∈ arr, e.word = d.word) →
      ∃ t1, t.insert d = .ok t1 ∧ t1.count = t.count ∧
        t1.toArray =
          .ok (t1, arr.map (fun x => if x.word = d.word then x.addAssign 1 else x)) := by
    intro t d arr hr ha hex
    obtain ⟨T, hinv⟩ := BST.Reachable.inv hr
    have harr := toArray_eq_of_inv hinv ha
    subst harr
    obtain ⟨t1, hrun, hinv1⟩ := BST.insert_inv hinv d
    have hlist := Tree.toList_ins d t.heap.length hinv.ordered
    rw [linsert_of_mem hinv.ordered.pairwise hex] at hlist
    refine ⟨t1, hrun, ?_, ?_⟩
    · rw [BST.count, BST.count, hinv1.size, hinv.size, hlist, List.length_map]
    · rw [BST.toArray_inv hinv1, hlist]
  have twice : ∀ d1 d2 : WordEntry, d1.word = d2.word →
      ∃ t, insertAll BST.new [d1, d2] = .ok t ∧ t.count = 1 ∧
        t.toArray = .ok (t, [⟨d1.word, wrapInt (d1.frequency + 1)⟩]) := by
    intro d1 d2 hw
    have h0 : Reachable (⟨[some ⟨d1, none, none⟩], some 0, 1, 0⟩ : BST) :=
      Reachable.insert (d := d1) Reachable.new rfl
    obtain ⟨t1, hrun, hcount, harr⟩ :=
      main _ d2 [d1] h0 rfl ⟨d1, List.mem_singleton_self _, hw⟩
    refine ⟨t1, ?_, hcount, ?_⟩
    · have : BST.new.insert d1 = .ok ⟨[some ⟨d1, none, none⟩], some 0, 1, 0⟩ := rfl
      simp only [insertAll, this, hrun]
    · rw [harr]
      simp [hw, WordEntry.addAssign]
  refine ⟨?_, ?_, ?_⟩
  · intro t d arr hr ha hex
    obtain ⟨t1, hrun, hcount, harr⟩ := main t d arr hr ha hex
    refine ⟨t1, hrun, hcount, harr, fun hrange => ?_⟩
    rw [harr]
    congr 2
    refine List.map_congr_left (fun x hx => ?_)
    by_cases hxw : x.word = d.word
    · obtain ⟨h1, h2⟩ := hrange x hx hxw
      simp only [hxw, if_true, WordEntry.addAssign]
      rw [wrapInt_of_range (by omega) (by omega)]
    · simp only [hxw, if_false]
  · intro d1 d2 hw h1 h2
    obtain ⟨t, hrun, hcount, harr⟩ := twice d1 d2 hw
    refine ⟨t, hrun, hcount, ?_⟩
    rw [harr, wrapInt_of_range (by omega) (by omega)]
  · intro w
    obtain ⟨t, hrun, hcount, harr⟩ := twice ⟨w, 1⟩ ⟨w, 1⟩ rfl
    refine ⟨t, ?_, hcount, harr⟩
    cases hi : BST.new.insert (⟨w, 1⟩ : WordEntry) with
    | error e => simp [insertAll, hi] at hrun
    | ok ta =>
      simp only [insertAll, hi] at hrun
      simp only [insertWords, hi]
      exact hrun

/-- Instance of C4 at the tree built from b, a, c and the key c, whose frequency 1
is below `INT_MAX`. -/
theorem C4_insert_present_witness :
    Reachable sampleTree ∧ sampleTree.toArray = .ok (sampleTree, [⟨"a", 1⟩, ⟨"b", 1⟩, ⟨"c", 1⟩]) ∧
    (∃ e ∈ [(⟨"a", 1⟩ : WordEntry), ⟨"b", 1⟩, ⟨"c", 1⟩], e.word = (⟨"c", 1⟩ : WordEntry).word) ∧
    (∀ e ∈ [(⟨"a", 1⟩ : WordEntry), ⟨"b", 1⟩, ⟨"c", 1⟩], e.word = (⟨"c", 1⟩ : WordEntry).word →
      -2147483648 ≤ e.frequency ∧ e.frequency < 2147483647) ∧
    ∃ t1, sampleTree.insert ⟨"c", 1⟩ = .ok t1 ∧ t1.count = sampleTree.count ∧
      t1.toArray = .ok (t1, [⟨"a", 1⟩, ⟨"b", 1⟩, ⟨"c", 2⟩]) := by
  have hex : ∃ e ∈ [(⟨"a", 1⟩ : WordEntry), ⟨"b", 1⟩, ⟨"c", 1⟩],
      e.word = (⟨"c", 1⟩ : WordEntry).word := ⟨⟨"c", 1⟩, by simp, rfl⟩
  have hrange : ∀ e ∈ [(⟨"a", 1⟩ : WordEntry), ⟨"b", 1⟩, ⟨"c", 1⟩],
      e.word = (⟨"c", 1⟩ : WordEntry).word →
      -2147483648 ≤ e.frequency ∧ e.frequency < 2147483647 := by decide
  obtain ⟨t1, h1, h2, -, h3⟩ := C4_insert_present.1 sampleTree ⟨"c", 1⟩
    [⟨"a", 1⟩, ⟨"b", 1⟩, ⟨"c", 1⟩] sampleTree_reachable rfl hex
  exact ⟨sampleTree_reachable, rfl, hex, hrange, t1, h1, h2, h3 hrange⟩

/-- C4 as stated fails: inserting the entry ("a", 7) twice into an empty BST gives
the key the count 8, not 2; and inserting the key "a" into the tree that holds
("a", 2147483647) takes the frequency to -2147483648, which is not an increase by
1. -/
theorem C4_counterexample :
    (∃ t, insertAll BST.new [⟨"a", 7⟩, ⟨"a", 7⟩] = .ok t ∧ t.count = 1 ∧
      t.toArray = .ok (t, [⟨"a", 8⟩])) ∧
    (∃ t t1, BST.new.insert ⟨"a", 2147483647⟩ = .ok t ∧
      t.toArray = .ok (t, [⟨"a", 2147483647⟩]) ∧
      t.insert ⟨"a", 1⟩ = .ok t1 ∧ t1.toArray = .ok (t1, [⟨"a", -2147483648⟩])) := by
  refine ⟨⟨⟨[some ⟨⟨"a", 8⟩, none, none⟩], some 0, 1, 0⟩, rfl, rfl, rfl⟩,
    ⟨⟨[some ⟨⟨"a", 2147483647⟩, none, none⟩], some 0, 1, 0⟩,
      ⟨[some ⟨⟨"a", -2147483648⟩, none, none⟩], some 0, 1, 0⟩, rfl, rfl, ?_, rfl⟩⟩
  have h : wrapInt (2147483647 + 1) = -2147483648 := by decide
  rw [insert_single, h]

theorem entryFrequency_of_absent (w : String) : ∀ (L : List WordEntry),
    (∀ x ∈ L, x.word ≠ w) → entryFrequency w L = none
  | [], _ => rfl
  | x :: L, h => by
    have hx : x.word ≠ w := h x (by simp)
    simp only [entryFrequency, hx, if_false]
    exact entryFrequency_of_absent w L (fun y hy => h y (by simp [hy]))

theorem entryFrequency_some {w : String} {f : Int} : ∀ {L : List WordEntry},
    entryFrequency w L = some f → ∃ e ∈ L, e.word = w ∧ e.frequency = f
  | x :: L, h => by
    simp only [entryFrequency] at h
    split_ifs at h with hx
    · exact ⟨x, by simp, hx, Option.some.inj h⟩
    · obtain ⟨e, he, hw, hf⟩ := entryFrequency_some h
      exact ⟨e, by simp [he], hw, hf⟩

theorem entryFrequency_none {w : String} : ∀ {L : List WordEntry},
    entryFrequency w L = none → ∀ e ∈ L, e.word ≠ w
  | [], _, e, he => by cases he
  | x :: L, h, e, he => by
    simp only [entryFrequency] at h
    split_ifs at h with hx
    rcases List.mem_cons.mp he with rfl | he
    · exact hx
    · exact entryFrequency_none h e he

/-- In a strictly ascending sequence the entry of a key is the only one with that
key. -/
theorem entryFrequency_of_mem : ∀ {L : List WordEntry} {e : WordEntry},
    L.Pairwise (fun a b => a.lt b = true) → e ∈ L →
    entryFrequency e.word L = some e.frequency
  | x :: L, e, hs, he => by
    obtain ⟨hx, hL⟩ := List.pairwise_cons.mp hs
    simp only [entryFrequency]
    rcases List.mem_cons.mp he with rfl | he
    · simp
    · have hne : x.word ≠ e.word := WordEntry.lt_ne (hx e he)
      simp only [hne, if_false]
      exact entryFrequency_of_mem hL he

/-- One `linsert` changes the frequency stored for the key inserted by `bump` and
no other. -/
theorem entryFrequency_linsert (d : WordEntry) (w : String) : ∀ {L : List WordEntry},
    L.Pairwise (fun a b => a.lt b = true) →
    entryFrequency w (linsert d L) =
      if d.word = w then bump d (entryFrequency w L) else entryFrequency w L
  | [], _ => by
    simp only [linsert, entryFrequency]
    split_ifs <;> rfl
  | e :: es, hs => by
    obtain ⟨he, hes⟩ := List.pairwise_cons.mp hs
    have ih := entryFrequency_linsert d w hes
    simp only [linsert]
    split_ifs with h1 h2 h3 h4 h5
    · -- e < d and d.word = w
      have hne : e.word ≠ w := fun h => WordEntry.lt_ne h1 (h.trans h2.symm)
      simp only [entryFrequency, hne, if_false]
      rw [ih, if_pos h2]
    · simp only [entryFrequency]
      rw [ih, if_neg h2]
    · -- d < e and d.word = w: no entry of the sequence has the key
      have habs : ∀ y ∈ e :: es, y.word ≠ w := by
        intro y hy
        rw [← h4]
        rcases List.mem_cons.mp hy with rfl | hy
        · exact (WordEntry.lt_ne h3).symm
        · exact (WordEntry.lt_ne (WordEntry.lt_trans h3 (he y hy))).symm
      rw [entryFrequency_of_absent w _ habs]
      simp [entryFrequency, h4, bump]
    · have : entryFrequency w (d :: e :: es) = entryFrequency w (e :: es) := by
        simp only [entryFrequency, h4, if_false]
      exact this
    · -- same key, and it is w
      simp only [Bool.not_eq_true] at h1 h3
      have hw : e.word = d.word := (WordEntry.word_eq_of_not_lt h3 h1).symm
      have hew : e.word = w := hw.trans h5
      simp [entryFrequency, hew, bump, WordEntry.addAssign]
    · simp only [Bool.not_eq_true] at h1 h3
      have hw : e.word = d.word := (WordEntry.word_eq_of_not_lt h3 h1).symm
      have hew : e.word ≠ w := fun h => h5 (hw.symm.trans h)
      simp [entryFrequency, hew]

/-- Running `insertAll` from a well-formed state returns, the state stays well
formed, and the frequency stored for each key is what `storedFrequency` says. -/
theorem insertAll_stored : ∀ (ds : List WordEntry) {t : BST} {T : Tree}, Inv t T →
    ∃ t1 T1, insertAll t ds = .ok t1 ∧ Inv t1 T1 ∧
      ∀ w, entryFrequency w T1.toList = storedFrequency w (entryFrequency w T.toList) ds
  | [], t, T, hinv => ⟨t, T, rfl, hinv, fun _ => rfl⟩
  | d :: ds, t, T, hinv => by
    obtain ⟨t1, hrun, hinv1⟩ := BST.insert_inv hinv d
    obtain ⟨t2, T2, hrun2, hinv2, hst⟩ := insertAll_stored ds hinv1
    refine ⟨t2, T2, by simp only [insertAll, hrun, hrun2], hinv2, fun w => ?_⟩
    rw [hst w, Tree.toList_ins _ _ hinv.ordered,
      entryFrequency_linsert d w hinv.ordered.pairwise, storedFrequency]

theorem storedFrequency_of_absent (w : String) : ∀ (ds : List WordEntry) (acc : Option Int),
    w ∉ ds.map (·.word) → storedFrequency w acc ds = acc
  | [], _, _ => rfl
  | d :: ds, acc, h => by
    simp only [List.map_cons, List.mem_cons, not_or] at h
    have hd : d.word ≠ w := fun hc => h.1 hc.symm
    simp only [storedFrequency, hd, if_false]
    exact storedFrequency_of_absent w ds acc h.2

/-- Increments of a stored frequency that stay within the range of `int` add
up. -/
theorem storedFrequency_some (w : String) : ∀ (ds : List WordEntry) (x : Int),
    -2147483648 ≤ x → x + ((ds.map (·.word)).count w : Int) < 2147483648 →
    storedFrequency w (some x) ds = some (x + ((ds.map (·.word)).count w : Int))
  | [], x, _, _ => by simp [storedFrequency]
  | d :: ds, x, h1, h2 => by
    rw [List.map_cons] at h2 ⊢
    rw [storedFrequency]
    by_cases hd : d.word = w
    · rw [if_pos hd]
      rw [hd, List.count_cons_self] at h2 ⊢
      push_cast at h2 ⊢
      simp only [bump]
      rw [wrapInt_of_range (by omega) (by omega),
        storedFrequency_some w ds (x + 1) (by omega) (by omega)]
      congr 1
      omega
    · have hc : (d.word :: ds.map (·.word)).count w = (ds.map (·.word)).count w :=
        List.count_cons_of_ne (fun h => hd h.symm) _
      rw [hc] at h2 ⊢
      rw [if_neg hd]
      exact storedFrequency_some w ds x h1 h2

/-- The frequency stored for a key that was inserted `n + 1` times is the
frequency of the first entry inserted with the key plus `n`, as long as that is
within the range of `int`. -/
theorem storedFrequency_none_start (w : String) : ∀ (ds : List WordEntry) (n : Nat),
    (ds.map (·.word)).count w = n + 1 → -2147483648 ≤ firstFrequency w ds →
    firstFrequency w ds + n < 2147483648 →
    storedFrequency w none ds = some (firstFrequency w ds + n)
  | [], n, h, _, _ => by simp at h
  | d :: ds, n, h, h1, h2 => by
    simp only [storedFrequency, firstFrequency, List.map_cons] at h h1 h2 ⊢
    by_cases hd : d.word = w
    · simp only [hd, if_true, bump, List.count_cons_self] at h h1 h2 ⊢
      have hn : (ds.map (·.word)).count w = n := by omega
      have := storedFrequency_some w ds d.frequency h1 (by rw [hn]; exact h2)
      rw [this, hn]
    · have hc : (d.word :: ds.map (·.word)).count w = (ds.map (·.word)).count w :=
        List.count_cons_of_ne (fun h => hd h.symm) _
      rw [hc] at h
      simp only [hd, if_false] at h1 h2 ⊢
      exact storedFrequency_none_start w ds n h h1 h2

/-- A key that occurs in the sequence has a stored frequency. -/
theorem storedFrequency_isSome (w : String) : ∀ (ds : List WordEntry) (acc : Option Int),
    (acc ≠ none ∨ w ∈ ds.map (·.word)) → storedFrequency w acc ds ≠ none
  | [], acc, h => by
    rcases h with h | h
    · exact h
    · cases h
  | d :: ds, acc, h => by
    simp only [storedFrequency]
    apply storedFrequency_isSome w ds
    by_cases hd : d.word = w
    · left
      simp only [hd, if_true]
      cases acc <;> simp [bump]
    · simp only [hd, if_false]
      rcases h with h | h
      · exact Or.inl h
      · right
        simp only [List.map_cons, List.mem_cons] at h
        rcases h with h | h
        · exact absurd h.symm hd
        · exact h

/-- C6 (as the code has it): for every BST built from the empty tree by a sequence
of `insert` calls and every key, `find(key)` terminates; when the key was inserted
at least once it returns the node holding that key, and otherwise it returns
`NULL`; `elementExists(key)` is true exactly when the key was inserted at least
once.  The frequency of the node found is the frequency carried by the first entry
inserted with the key plus the number of later insertions of the key, as long as
that is within the range of `int`; so for entries inserted with frequency 1, as
those of `main` are, it is the number of times the key was inserted, as long as
that is below 2^31. -/
theorem C6_find :
    (∀ (ds : List WordEntry) (k : WordEntry), ∃ t, insertAll BST.new ds = .ok t ∧
      (k.word ∈ ds.map (·.word) → ∃ a nd, t.find k = .ok (some a) ∧
        deref t.heap (some a) = .ok nd ∧ nd.data.word = k.word ∧
        ∀ n : Nat, (ds.map (·.word)).count k.word = n + 1 →
          -2147483648 ≤ firstFrequency k.word ds →
          firstFrequency k.word ds + n < 2147483648 →
          nd.data.frequency = firstFrequency k.word ds + n) ∧
      (k.word ∉ ds.map (·.word) → t.find k = .ok none) ∧
      t.elementExists k = .ok (decide (k.word ∈ ds.map (·.word)))) ∧
    (∀ (ws : List String) (k : WordEntry), ∃ t, insertWords BST.new ws = .ok t ∧
      (k.word ∈ ws → ∃ a nd, t.find k = .ok (some a) ∧
        deref t.heap (some a) = .ok nd ∧ nd.data.word = k.word ∧
        nd.data.frequency = wrapInt (ws.count k.word : Int) ∧
        (ws.count k.word < 2147483648 → nd.data.frequency = (ws.count k.word : Int))) ∧
      (k.word ∉ ws → t.find k = .ok none) ∧
      t.elementExists k = .ok (decide (k.word ∈ ws))) := by
  constructor
  · intro ds k
    obtain ⟨t, T, hrun, hinv, hst⟩ := insertAll_stored ds inv_new
    have hfind := BST.find_inv hinv k
    have hst' : entryFrequency k.word T.toList = storedFrequency k.word none ds := hst k.word
    have hin : k.word ∈ ds.map (·.word) → ∃ a e, T.lookup k = some (a, e) := by
      intro hk
      cases hl : T.lookup k with
      | none =>
        exfalso
        have habs := Tree.lookup_none hinv.ordered hl
        rw [entryFrequency_of_absent _ _ habs] at hst'
        exact storedFrequency_isSome k.word ds none (Or.inr hk) hst'.symm
      | some ae => exact ⟨ae.1, ae.2, rfl⟩
    have hout : k.word ∉ ds.map (·.word) → T.lookup k = none := by
      intro hk
      cases hl : T.lookup k with
      | none => rfl
      | some ae =>
        exfalso
        obtain ⟨a, e⟩ := ae
        obtain ⟨he, hew⟩ := Tree.lookup_some hl
        rw [storedFrequency_of_absent _ _ _ hk] at hst'
        exact entryFrequency_none hst' e he hew
    refine ⟨t, hrun, ?_, ?_, ?_⟩
    · intro hk
      obtain ⟨a, e, hl⟩ := hin hk
      obtain ⟨he, hew⟩ := Tree.lookup_some hl
      obtain ⟨lp, rp, hc⟩ := hinv.rep.lookup_cell hl
      refine ⟨a, ⟨e, lp, rp⟩, by rw [hfind, hl]; rfl, BST.deref_cell hc, hew, ?_⟩
      intro n hn h1 h2
      have hmem := entryFrequency_of_mem hinv.ordered.pairwise he
      rw [hew, hst', storedFrequency_none_start k.word ds n hn h1 h2] at hmem
      exact (Option.some.inj hmem).symm
    · intro hk
      rw [hfind, hout hk]
      rfl
    · rw [BST.elementExists, hfind]
      by_cases hk : k.word ∈ ds.map (·.word)
      · obtain ⟨a, e, hl⟩ := hin hk
        simp only [hl, Option.map_some', decide_eq_true hk]
        rfl
      · simp only [hout hk, Option.map_none', decide_eq_false hk]
        rfl
  · intro ws k
    obtain ⟨t, T, hrun, hinv, htal⟩ := insertWords_new ws
    have hfind := BST.find_inv hinv k
    have hin : k.word ∈ ws → ∃ a e, T.lookup k = some (a, e) := by
      intro hk
      obtain ⟨e, he, hew⟩ := htal.complete _ hk
      cases hl : T.lookup k with
      | none => exact absurd hew (Tree.lookup_none hinv.ordered hl e he)
      | some ae => exact ⟨ae.1, ae.2, rfl⟩
    have hout : k.word ∉ ws → T.lookup k = none := by
      intro hk
      cases hl : T.lookup k with
      | none => rfl
      | some ae =>
        obtain ⟨a, e⟩ := ae
        obtain ⟨he, hew⟩ := Tree.lookup_some hl
        exact absurd (hew ▸ (htal.sound e he).1) hk
    refine ⟨t, hrun, ?_, ?_, ?_⟩
    · intro hk
      obtain ⟨a, e, hl⟩ := hin hk
      obtain ⟨he, hew⟩ := Tree.lookup_some hl
      obtain ⟨lp, rp, hc⟩ := hinv.rep.lookup_cell hl
      have hfreq := (htal.sound e he).2
      rw [hew] at hfreq
      refine ⟨a, ⟨e, lp, rp⟩, by rw [hfind, hl]; rfl, BST.deref_cell hc, hew, hfreq, ?_⟩
      intro hlt
      show e.frequency = _
      rw [hfreq]
      exact wrapInt_of_range (by omega) (by omega)
    · intro hk
      rw [hfind, hout hk]
      rfl
    · rw [BST.elementExists, hfind]
      by_cases hk : k.word ∈ ws
      · obtain ⟨a, e, hl⟩ := hin hk
        simp only [hl, Option.map_some', decide_eq_true hk]
        rfl
      · simp only [hout hk, Option.map_none', decide_eq_false hk]
        rfl

/-- Instance of C6 at the entries (b, 7), (a, 1), (b, 1) with the keys b (inserted
twice, first with frequency 7) and c (never inserted). -/
theorem C6_find_witness :
    ∃ t, insertAll BST.new [⟨"b", 7⟩, ⟨"a", 1⟩, ⟨"b", 1⟩] = .ok t ∧
      (∃ a nd, t.find ⟨"b", 0⟩ = .ok (some a) ∧ deref t.heap (some a) = .ok nd ∧
        nd.data.word = "b" ∧ nd.data.frequency = 8) ∧
      t.find ⟨"c", 0⟩ = .ok none := by
  obtain ⟨t, h1, h2, -, -⟩ := C6_find.1 [⟨"b", 7⟩, ⟨"a", 1⟩, ⟨"b", 1⟩] ⟨"b", 0⟩
  obtain ⟨t1, h3, -, h4, -⟩ := C6_find.1 [⟨"b", 7⟩, ⟨"a", 1⟩, ⟨"b", 1⟩] ⟨"c", 0⟩
  rw [h1] at h3
  cases h3
  obtain ⟨a, nd, h5, h6, h7, h8⟩ := h2 (by decide)
  exact ⟨t, h1, ⟨a, nd, h5, h6, h7, h8 1 (by decide) (by decide) (by decide)⟩,
    h4 (by decide)⟩

/-- C6 as stated fails: after the single call `insert(("a", 7))` on the empty BST,
`find` returns the node of "a" with frequency 7, although the key was inserted
once. -/
theorem C6_counterexample :
    ∃ t, BST.new.insert ⟨"a", 7⟩ = .ok t ∧ t.find ⟨"a", 0⟩ = .ok (some 0) ∧
      t.heap[0]? = some (some ⟨⟨"a", 7⟩, none, none⟩) ∧
      (([⟨"a", 7⟩] : List WordEntry).map (·.word)).count "a" = 1 :=
  ⟨⟨[some ⟨⟨"a", 7⟩, none, none⟩], some 0, 1, 0⟩, rfl, rfl, rfl, by decide⟩

/-! ## Removal -/

namespace BST

/-- `deleteNode` writes neither `numNodes` nor `root`. -/
theorem deleteNode_fields {t t1 : BST} {node : Option Nat} (h : deleteNode t node = .ok t1) :
    t1.numNodes = t.numNodes ∧ t1.root = t.root := by
  unfold deleteNode at h
  repeat' split at h
  all_goals first
    | (cases h; exact ⟨rfl, rfl⟩)
    | cases h

/-- `removeHelper` writes neither `numNodes` nor `root`. -/
theorem removeHelper_fields : ∀ (fuel : Nat) {t t1 : BST} {node : Option Nat} {d : WordEntry},
    removeHelper fuel t node d = .ok t1 → t1.numNodes = t.numNodes ∧ t1.root = t.root
  | 0, _, _, _, _, h => by cases h
  | fuel + 1, t, t1, node, d, h => by
    rw [removeHelper] at h
    split at h
    · cases h
    · split_ifs at h
      · exact removeHelper_fields fuel h
      · exact removeHelper_fields fuel h
      · exact deleteNode_fields h

/-- The descent of `removeHelper` for a key that the tree does not hold ends in a
member access through `NULL`. -/
theorem removeHelper_absent (t : BST) (d : WordEntry) : ∀ (T : Tree) (p : Option Nat)
    (fuel : Nat), T.Rep t.heap p → T.height < fuel → T.lookup d = none →
    removeHelper fuel t p d = .error .nullDeref
  | .nil, p, fuel, hrep, hf, _ => by
    cases hrep
    cases fuel with
    | zero => simp [Tree.height] at hf
    | succ fuel => simp [removeHelper, deref]
  | .node l a e r, p, fuel, ⟨hp, lp, rp, hc, hl, hr⟩, hf, hk => by
    cases hp
    cases fuel with
    | zero => simp at hf
    | succ fuel =>
      simp only [Tree.height] at hf
      simp only [Tree.lookup] at hk
      rw [removeHelper]
      simp only [deref_cell hc]
      split_ifs at hk with h1 h2
      · have h3 : d.lt e = true := h2
        simp only [h3, if_true]
        exact removeHelper_absent t d l lp fuel hl (by omega) hk
      · have h3 : d.lt e = false := by
          simpa [WordEntry.gt_eq_lt] using h2
        have h4 : d.gt e = true := by
          simp only [WordEntry.eq, WordEntry.gt_eq_lt, Bool.and_eq_true, Bool.not_eq_true',
            not_and, Bool.not_eq_false] at h1
          cases hc : e.lt d with
          | true => exact hc
          | false => rw [h1 hc] at h3; cases h3
        simp only [h3, h4, if_true, Bool.false_eq_true, if_false]
        exact removeHelper_absent t d r rp fuel hr (by omega) hk

end BST

/-- C7, evaluated on the code: `remove` of the only key of a tree returns with
`count()` still 1 and `root` still pointing at the deleted node, so the following
`elementExists` reads a deleted node; and whenever `remove` returns, `count()` and
`root` are what they were. -/
theorem C7_remove_keeps_count :
    (∀ (t t1 : BST) (d : WordEntry), t.remove d = .ok t1 →
        t1.count = t.count ∧ t1.root = t.root) ∧
    (∃ t t1, insertWords BST.new ["a"] = .ok t ∧ t.count = 1 ∧
        t.remove ⟨"a", 1⟩ = .ok t1 ∧ t1.count = 1 ∧ t1.root = some 0 ∧ t1.heap = [none] ∧
        t1.elementExists ⟨"a", 1⟩ = .error .useAfterFree) :=
  ⟨fun _ _ _ h => BST.removeHelper_fields _ h, _, _, rfl, rfl, rfl, rfl, rfl, rfl, rfl⟩

/-- Instance of C7 at the tree built from b, a, c and the key a. -/
theorem C7_remove_keeps_count_witness :
    sampleTree.remove ⟨"a", 1⟩ =
      .ok { sampleTree with heap := [some ⟨⟨"b", 1⟩, some 1, some 2⟩, none,
              some ⟨⟨"c", 1⟩, none, none⟩] } ∧
    BST.count { sampleTree with heap := [some ⟨⟨"b", 1⟩, some 1, some 2⟩, none,
              some ⟨⟨"c", 1⟩, none, none⟩] } = sampleTree.count :=
  ⟨rfl, (C7_remove_keeps_count.1 sampleTree _ ⟨"a", 1⟩ rfl).1⟩

/-- C8, evaluated on the code: on every BST reachable by insertions, the empty one
included, `remove` of a key that is not stored does not return: the descent ends
in a member access through `NULL`. -/
theorem C8_remove_absent_faults (t : BST) (k : WordEntry) (arr : List WordEntry)
    (hr : Reachable t) (ha : t.toArray = .ok (t, arr)) (habs : ∀ e ∈ arr, e.word ≠ k.word) :
    t.remove k = .error .nullDeref := by
  obtain ⟨T, hinv⟩ := BST.Reachable.inv hr
  have harr := toArray_eq_of_inv hinv ha
  subst harr
  have hk : T.lookup k = none := by
    cases hl : T.lookup k with
    | none => rfl
    | some ae =>
      obtain ⟨a, e⟩ := ae
      obtain ⟨he, hew⟩ := Tree.lookup_some hl
      exact absurd hew (habs e he)
  exact BST.removeHelper_absent t k T t.root _ hinv.rep
    (Nat.lt_succ_of_le (Nat.le_trans (Tree.height_le _) (hinv.rep.length_le hinv.nodup))) hk

/-- Instance of C8 at the empty tree and the key x. -/
theorem C8_remove_absent_faults_witness :
    Reachable BST.new ∧ BST.new.toArray = .ok (BST.new, []) ∧
    (∀ e ∈ ([] : List WordEntry), e.word ≠ (⟨"x", 1⟩ : WordEntry).word) ∧
    BST.new.remove ⟨"x", 1⟩ = .error .nullDeref :=
  ⟨Reachable.new, rfl, by simp,
    C8_remove_absent_faults BST.new ⟨"x", 1⟩ [] Reachable.new rfl (by simp)⟩

/-- C9, evaluated on the code: after inserting "b" and "a", `remove("a")` deletes
the node of "a" and leaves the left link of "b" pointing at it, so `find("a")`
reads a deleted node instead of returning `NULL`; and `remove("b")` deletes the
root and leaves `root` pointing at it, so `find("a")` of the other key, which was
never removed, reads a deleted node too. -/
theorem C9_find_after_remove :
    ∃ t t1 t2, insertWords BST.new ["b", "a"] = .ok t ∧
      t.find ⟨"a", 1⟩ = .ok (some 1) ∧
      t.remove ⟨"a", 1⟩ = .ok t1 ∧
      t1.heap = [some ⟨⟨"b", 1⟩, some 1, none⟩, none] ∧
      t1.find ⟨"a", 1⟩ = .error .useAfterFree ∧
      t.remove ⟨"b", 1⟩ = .ok t2 ∧
      t2.root = some 0 ∧ t2.heap = [none, some ⟨⟨"a", 1⟩, none, none⟩] ∧
      t2.find ⟨"a", 1⟩ = .error .useAfterFree :=
  ⟨_, _, _, rfl, rfl, rfl, rfl, rfl, rfl, rfl, rfl, rfl⟩

/-- C10, evaluated on the code: in each of the three cases of `deleteNode` (leaf,
single child, two children) the deleted node stays linked from its parent or from
`root`, so the in-order traversal of `toArray` after the removal reads a deleted
node and yields no sequence at all. -/
theorem C10_toArray_after_remove :
    ∃ t t1 t2 t3, insertWords BST.new ["b", "a", "c", "d"] = .ok t ∧
      t.toArray = .ok (t, [⟨"a", 1⟩, ⟨"b", 1⟩, ⟨"c", 1⟩, ⟨"d", 1⟩]) ∧
      t.remove ⟨"a", 1⟩ = .ok t1 ∧ t1.toArray = .error .useAfterFree ∧
      t.remove ⟨"c", 1⟩ = .ok t2 ∧ t2.toArray = .error .useAfterFree ∧
      t.remove ⟨"b", 1⟩ = .ok t3 ∧ t3.toArray = .error .useAfterFree ∧
      t3.root = some 0 ∧
      t3.heap = [none, some ⟨⟨"a", 1⟩, none, none⟩, some ⟨⟨"c", 1⟩, some 1, some 3⟩,
        some ⟨⟨"d", 1⟩, none, none⟩] :=
  ⟨_, _, _, _, rfl, rfl, rfl, rfl, rfl, rfl, rfl, rfl, rfl, rfl⟩

/-! ## Clearing the tree -/

namespace BST

/-- `emptyHelper` writes neither `root` nor `numNodes` nor the cursor. -/
theorem emptyHelper_fields : ∀ (fuel : Nat) {t t1 : BST} {node : Option Nat},
    emptyHelper fuel t node = .ok t1 →
    t1.root = t.root ∧ t1.numNodes = t.numNodes ∧ t1.toArrayIndex = t.toArrayIndex
  | 0, _, _, _, h => by cases h
  | fuel + 1, t, t1, none, h => by
    simp only [emptyHelper] at h
    cases h
    exact ⟨rfl, rfl, rfl⟩
  | fuel + 1, t, t1, some n, h => by
    rw [emptyHelper] at h
    split at h
    · cases h
    · split at h
      · cases h
      · rename_i ta hleft
        split at h
        · cases h
        · split at h
          · cases h
          · rename_i tb hright
            cases h
            obtain ⟨a1, a2, a3⟩ := emptyHelper_fields fuel hleft
            obtain ⟨b1, b2, b3⟩ := emptyHelper_fields fuel hright
            exact ⟨b1.trans a1, b2.trans a2, b3.trans a3⟩

/-- The post-order walk of `emptyHelper` over a represented tree returns; it
deletes exactly the cells of the tree. -/
theorem emptyHelper_rep : ∀ (T : Tree) (t : BST) (p : Option Nat) (fuel : Nat),
    T.Rep t.heap p → T.addrs.Nodup → T.height < fuel →
    ∃ h1 : Heap, emptyHelper fuel t p = .ok { t with heap := h1 } ∧
      (∀ i, i ∉ T.addrs → h1[i]? = t.heap[i]?) ∧ (∀ i ∈ T.addrs, h1[i]? = some none)
  | .nil, t, p, fuel, hrep, _, hf => by
    cases hrep
    cases fuel with
    | zero => simp [Tree.height] at hf
    | succ fuel =>
      exact ⟨t.heap, by simp [emptyHelper], fun _ _ => rfl, fun i hi => by simp [Tree.addrs] at hi⟩
  | .node l a e r, t, p, fuel, ⟨hp, lp, rp, hc, hl, hr⟩, hnd, hf => by
    cases hp
    have hnd0 := hnd
    simp only [Tree.addrs, List.nodup_append, List.nodup_cons, List.Disjoint, List.mem_cons] at hnd0
    obtain ⟨hndl, ⟨har, hndr⟩, hdisj⟩ := hnd0
    have hal : a ∉ l.addrs := fun h => hdisj h (Or.inl rfl)
    cases fuel with
    | zero => simp at hf
    | succ fuel =>
      simp only [Tree.height] at hf
      obtain ⟨h1, hrun1, hframe1, hdel1⟩ := emptyHelper_rep l t lp fuel hl hndl (by omega)
      have hc1 : h1[a]? = some (some ⟨e, lp, rp⟩) := by rw [hframe1 a hal]; exact hc
      have hr1 : r.Rep h1 rp :=
        Tree.Rep.frame hr (fun i hi => hframe1 i (fun h => hdisj h (Or.inr hi)))
      obtain ⟨h2, hrun2, hframe2, hdel2⟩ :=
        emptyHelper_rep r { t with heap := h1 } rp fuel hr1 hndr (by omega)
      have ha2 : a < h2.length := by
        have : h2[a]? = some (some ⟨e, lp, rp⟩) := by rw [hframe2 a har]; exact hc1
        exact cell_lt this
      refine ⟨free h2 a, ?_, ?_, ?_⟩
      · rw [emptyHelper]
        simp only [deref_cell hc, hrun1, deref_cell hc1, hrun2]
      · intro i hi
        simp only [Tree.addrs, List.mem_append, List.mem_cons, not_or] at hi
        have hia : a ≠ i := fun h => hi.2.1 h.symm
        rw [free, List.getElem?_set_ne hia, hframe2 i hi.2.2, hframe1 i hi.1]
      · intro i hi
        simp only [Tree.addrs, List.mem_append, List.mem_cons] at hi
        rcases hi with hi | rfl | hi
        · have hia : a ≠ i := fun h => hal (h ▸ hi)
          rw [free, List.getElem?_set_ne hia, hframe2 i (fun h => hdisj hi (Or.inr h))]
          exact hdel1 i hi
        · rw [free, List.getElem?_set_self ha2]
        · have hia : a ≠ i := fun h => har (h ▸ hi)
          rw [free, List.getElem?_set_ne hia]
          exact hdel2 i hi

end BST

/-- C11, evaluated on the code: on every BST reachable by insertions that holds at
least one node, `empty()` returns with `root` still pointing at the node that was
the root, now deleted, and with `count()` unchanged and positive, so the following
`toArray()` reads a deleted node instead of returning an empty sequence. -/
theorem C11_empty_keeps_root (t : BST) (hr : Reachable t) (hne : t.root ≠ none) :
    ∃ t1, t.empty = .ok t1 ∧ t1.root = t.root ∧ t1.root ≠ none ∧
      t1.count = t.count ∧ 0 < t1.count ∧ t1.toArray = .error .useAfterFree := by
  obtain ⟨T, hinv⟩ := BST.Reachable.inv hr
  obtain ⟨h1, hrun, -, hdel⟩ := BST.emptyHelper_rep T t t.root _ hinv.rep hinv.nodup
    (Nat.lt_succ_of_le (Nat.le_trans (Tree.height_le _) (hinv.rep.length_le hinv.nodup)))
  cases T with
  | nil => exact absurd hinv.rep hne
  | node l a e r =>
    have hroot : t.root = some a := hinv.rep.1
    have hfree : h1[a]? = some none := hdel a (by simp [Tree.addrs])
    refine ⟨{ t with heap := h1 }, hrun, rfl, hne, rfl, ?_, ?_⟩
    · show 0 < t.numNodes
      rw [hinv.size]
      simp [Tree.toList]
    · simp [BST.toArray, BST.toArrayHelper, hroot, deref, hfree]

/-- Instance of C11 at the tree built from b, a, c. -/
theorem C11_empty_keeps_root_witness :
    Reachable sampleTree ∧ sampleTree.root ≠ none ∧
    ∃ t1, sampleTree.empty = .ok t1 ∧ t1.root = sampleTree.root ∧ t1.root ≠ none ∧
      t1.count = sampleTree.count ∧ 0 < t1.count ∧ t1.toArray = .error .useAfterFree :=
  ⟨sampleTree_reachable, by decide,
    C11_empty_keeps_root sampleTree sampleTree_reachable (by decide)⟩

/-! ## The linear scan of `getFrequency` -/

/-- The loop of `getFrequency` over the rest of the buffer computes
`firstFrequency` of the entries it scans. -/
theorem getFrequencyLoop_eq (array : List WordEntry) (word : String) :
    ∀ (n i : Nat), i + n ≤ array.length →
    getFrequencyLoop array word i n = .ok (firstFrequency word ((array.drop i).take n))
  | 0, i, _ => by simp [getFrequencyLoop, firstFrequency]
  | n + 1, i, h => by
    have hi : i < array.length := by omega
    rw [getFrequencyLoop, List.getElem?_eq_getElem hi]
    simp only
    rw [List.drop_eq_getElem_cons hi, List.take_succ_cons]
    simp only [firstFrequency]
    split_ifs
    · rfl
    · exact getFrequencyLoop_eq array word n (i + 1) (by omega)

theorem getFrequency_eq (array : List WordEntry) (word : String) (len : Nat)
    (hlen : len ≤ array.length) :
    getFrequency array word len = .ok (firstFrequency word (array.take len)) := by
  have := getFrequencyLoop_eq array word len 0 (by omega)
  simpa [getFrequency] using this

theorem firstFrequency_of_first (word : String) : ∀ (L1 : List WordEntry) (e : WordEntry)
    (L2 : List WordEntry), e.word = word → (∀ x ∈ L1, x.word ≠ word) →
    firstFrequency word (L1 ++ e :: L2) = e.frequency
  | [], e, L2, he, _ => by simp [firstFrequency, he]
  | x :: L1, e, L2, he, h => by
    have hx : x.word ≠ word := h x (by simp)
    simp only [List.cons_append, firstFrequency, hx, if_false]
    exact firstFrequency_of_first word L1 e L2 he (fun y hy => h y (by simp [hy]))

theorem firstFrequency_of_absent (word : String) : ∀ (L : List WordEntry),
    (∀ x ∈ L, x.word ≠ word) → firstFrequency word L = 0
  | [], _ => rfl
  | x :: L, h => by
    have hx : x.word ≠ word := h x (by simp)
    simp only [firstFrequency, hx, if_false]
    exact firstFrequency_of_absent word L (fun y hy => h y (by simp [hy]))

/-- C15: for every array of entries of length `len` and every word,
`getFrequency(array, word, len)` returns the frequency of the first entry, in scan
order, among the first `len` entries whose word equals the given word, and returns
0 when no entry has that word. -/
theorem C15_getFrequency (array : List WordEntry) (word : String) (len : Nat)
    (hlen : len ≤ array.length) :
    (∀ (L1 : List WordEntry) (e : WordEntry) (L2 : List WordEntry),
        array.take len = L1 ++ e :: L2 → e.word = word → (∀ x ∈ L1, x.word ≠ word) →
        getFrequency array word len = .ok e.frequency) ∧
    ((∀ x ∈ array.take len, x.word ≠ word) → getFrequency array word len = .ok 0) := by
  rw [getFrequency_eq array word len hlen]
  refine ⟨fun L1 e L2 hsplit he hL1 => ?_, fun h => ?_⟩
  · rw [hsplit, firstFrequency_of_first word L1 e L2 he hL1]
  · rw [firstFrequency_of_absent word _ h]

/-- Instance of C15 at the eleven-entry array with the words c (present) and zz
(absent). -/
theorem C15_getFrequency_witness :
    getFrequency tiesArray "c" 11 = .ok 3 ∧ getFrequency tiesArray "zz" 11 = .ok 0 :=
  ⟨(C15_getFrequency tiesArray "c" 11 (by decide)).1 [⟨"a", 5⟩, ⟨"b", 5⟩] ⟨"c", 3⟩
      [⟨"d", 1⟩, ⟨"e", 1⟩, ⟨"f", 1⟩, ⟨"g", 1⟩, ⟨"h", 1⟩, ⟨"i", 1⟩, ⟨"j", 1⟩, ⟨"k", 1⟩]
      rfl rfl (by decide),
    (C15_getFrequency tiesArray "zz" 11 (by decide)).2 (by decide)⟩

theorem isAlpha_go_iff : ∀ cs : List Char,
    isAlpha.go cs = true ↔ ∀ c ∈ cs, c.isAlpha = true ∨ c = apostrophe
  | [] => by simp [isAlpha.go]
  | c :: cs => by
    simp only [isAlpha.go, List.mem_cons, forall_eq_or_imp]
    by_cases hc : c.isAlpha = true ∨ c = apostrophe
    · have : (!(c.isAlpha || c == apostrophe)) = false := by
        rcases hc with h | h <;> simp [h]
      simp only [this, Bool.false_eq_true, if_false, isAlpha_go_iff cs]
      exact ⟨fun h => ⟨hc, h⟩, fun h => h.2⟩
    · have : (!(c.isAlpha || c == apostrophe)) = true := by
        simp only [not_or] at hc
        simp [hc.1, hc.2]
      simp only [this, if_true]
      exact ⟨fun h => (by cases h), fun h => absurd h.1 hc⟩

/-- C16: for every token, `isAlpha(token)` is true if and only if every character
of the token is an alphabetic character or an apostrophe, and the token loop of
`main` inserts the lower-cased token (with frequency 1) exactly when `isAlpha` is
true for it and leaves the tree as it is otherwise. -/
theorem C16_isAlpha :
    (∀ token : String, isAlpha token = true ↔
        ∀ c ∈ token.data, c.isAlpha = true ∨ c = apostrophe) ∧
    (∀ (tree : BST) (numWords : Nat) (token : String),
        isAlpha (toLowerWord token) = false →
        processToken tree numWords token = .ok (tree, numWords + 1)) ∧
    (∀ (tree tree1 : BST) (numWords : Nat) (token : String),
        isAlpha (toLowerWord token) = true →
        tree.insert ⟨toLowerWord token, 1⟩ = .ok tree1 →
        processToken tree numWords token = .ok (tree1, numWords + 1)) := by
  refine ⟨fun token => isAlpha_go_iff token.data, ?_, ?_⟩
  · intro tree numWords token h
    simp [processToken, h]
  · intro tree tree1 numWords token h hins
    simp [processToken, h, hins]

/-- Instance of C16 at the tokens Don't (accepted, inserted as don't) and R2D2
(rejected). -/
theorem C16_isAlpha_witness :
    processToken BST.new 0 "R2D2" = .ok (BST.new, 1) ∧
    processToken BST.new 0 "Don't" =
      .ok (⟨[some ⟨⟨"don't", 1⟩, none, none⟩], some 0, 1, 0⟩, 1) :=
  ⟨C16_isAlpha.2.1 BST.new 0 "R2D2" (by decide),
    C16_isAlpha.2.2 BST.new _ 0 "Don't" (by decide) rfl⟩

/-! ## Repeating `toArray` -/

/-- The inner loop over the rest of the selection buffer: `found` becomes true
exactly when one of the entries scanned carries the word. -/
theorem foundLoop_eq (word : String) (sel : List WordEntry) :
    ∀ (n j : Nat) (found : Bool), j + n = sel.length →
    foundLoop word sel j n found =
      .ok (found || (sel.drop j).any (fun s => decide (word = s.word)))
  | 0, j, found, h => by
    rw [foundLoop, List.drop_eq_nil_of_le (by omega)]
    simp
  | n + 1, j, found, h => by
    have hj : j < sel.length := by omega
    rw [foundLoop, List.getElem?_eq_getElem hj]
    simp only
    rw [foundLoop_eq word sel n (j + 1) _ (by omega), List.drop_eq_getElem_cons hj,
      List.any_cons]
    by_cases hw : word = sel[j].word
    · rw [if_pos hw, decide_eq_true hw]
      simp only [Bool.true_or, Bool.or_true]
    · rw [if_neg hw, decide_eq_false hw, Bool.false_or]

/-- With a selection buffer of five entries, the inner loop reports whether the
word is the word of one of them. -/
theorem foundLoop_five (word : String) (sel : List WordEntry) (hsel : sel.length = 5) :
    ∃ found, foundLoop word sel 0 5 false = .ok found ∧
      (found = false ↔ ∀ s ∈ sel, word ≠ s.word) := by
  refine ⟨_, foundLoop_eq word sel 5 0 false (by omega), ?_⟩
  simp

/-- The outer loop of `getMax` over the rest of the array, started with `seed`:
either no entry scanned qualifies with at least the frequency of `seed` and the
loop returns `seed`, or it returns a qualifying entry of greatest frequency, the
last one in scan order among those of that frequency. -/
theorem getMaxLoop_spec (array sel : List WordEntry) (thresh : Int) (hsel : sel.length = 5) :
    ∀ (n i : Nat) (seed : WordEntry), i + n = array.length →
    ∃ r, getMaxLoop array sel thresh i n seed = .ok r ∧
      ((r = seed ∧ ∀ e ∈ array.drop i, Qualifies thresh sel e → e.frequency < seed.frequency) ∨
       (∃ L1 L2, array.drop i = L1 ++ r :: L2 ∧ Qualifies thresh sel r ∧
          seed.frequency ≤ r.frequency ∧
          (∀ e ∈ L1, Qualifies thresh sel e → e.frequency ≤ r.frequency) ∧
          (∀ e ∈ L2, Qualifies thresh sel e → e.frequency < r.frequency)))
  | 0, i, seed, h => by
    refine ⟨seed, rfl, Or.inl ⟨rfl, ?_⟩⟩
    rw [List.drop_eq_nil_of_le (by omega)]
    intro e he
    cases he
  | n + 1, i, seed, h => by
    have hi : i < array.length := by omega
    obtain ⟨found, hfound, hiff⟩ := foundLoop_five array[i].word sel hsel
    rw [getMaxLoop, List.getElem?_eq_getElem hi]
    simp only [hfound]
    rw [List.drop_eq_getElem_cons hi]
    by_cases hcond : array[i].frequency ≥ seed.frequency ∧ array[i].frequency ≤ thresh ∧
        found = false
    · rw [if_pos hcond]
      have hq : Qualifies thresh sel array[i] := ⟨hcond.2.1, hiff.mp hcond.2.2⟩
      obtain ⟨r, hrun, hr⟩ := getMaxLoop_spec array sel thresh hsel n (i + 1) array[i] (by omega)
      refine ⟨r, hrun, Or.inr ?_⟩
      rcases hr with ⟨rfl, hall⟩ | ⟨L1, L2, hsplit, hqr, hge, h1, h2⟩
      · exact ⟨[], array.drop (i + 1), rfl, hq, hcond.1, fun e he => (by cases he), hall⟩
      · refine ⟨array[i] :: L1, L2, by rw [hsplit]; rfl, hqr, le_trans hcond.1 hge, ?_, h2⟩
        intro e he hqe
        rcases List.mem_cons.mp he with rfl | he
        · exact hge
        · exact h1 e he hqe
    · rw [if_neg hcond]
      have hlow : Qualifies thresh sel array[i] → array[i].frequency < seed.frequency := by
        intro hq
        by_contra hge
        exact hcond ⟨not_lt.mp hge, hq.1, hiff.mpr hq.2⟩
      obtain ⟨r, hrun, hr⟩ := getMaxLoop_spec array sel thresh hsel n (i + 1) seed (by omega)
      refine ⟨r, hrun, ?_⟩
      rcases hr with ⟨rfl, hall⟩ | ⟨L1, L2, hsplit, hqr, hge, h1, h2⟩
      · left
        refine ⟨rfl, fun e he hqe => ?_⟩
        rcases List.mem_cons.mp he with rfl | he
        · exact hlow hqe
        · exact hall e he hqe
      · right
        refine ⟨array[i] :: L1, L2, by rw [hsplit]; rfl, hqr, hge, ?_, h2⟩
        intro e he hqe
        rcases List.mem_cons.mp he with rfl | he
        · exact le_of_lt (lt_of_lt_of_le (hlow hqe) hge)
        · exact h1 e he hqe

/-- C12 (as the code has it): for every array in which `array[10]` exists, every
threshold and every five already-selected entries, whenever some entry that
qualifies (frequency at most the threshold, word not already selected) has at
least the frequency of `array[10]`, `getMax` returns a qualifying entry of the
greatest frequency, and among several of that frequency it returns the last in
scan order, which in an alphabetically sorted array is the alphabetically latest;
so the top-5 extraction over a:5, b:5, c:3 and d to k with 1 each yields b(5),
a(5), c(3), k(1), j(1). -/
theorem C12_getMax_last_of_ties :
    (∀ (array maxArray : List WordEntry) (thresh : Int) (seed : WordEntry),
        maxArray.length = 5 → array[10]? = some seed →
        (∃ e ∈ array, Qualifies thresh maxArray e ∧ seed.frequency ≤ e.frequency) →
        ∃ r L1 L2, getMax array maxArray thresh array.length = .ok r ∧
          array = L1 ++ r :: L2 ∧ Qualifies thresh maxArray r ∧
          (∀ e ∈ L1, Qualifies thresh maxArray e → e.frequency ≤ r.frequency) ∧
          (∀ e ∈ L2, Qualifies thresh maxArray e → e.frequency < r.frequency) ∧
          (array.Pairwise (fun a b => a.lt b = true) →
            ∀ e ∈ array, Qualifies thresh maxArray e → e.frequency = r.frequency →
              e = r ∨ e.lt r = true)) ∧
    topFive tiesArray 11 = .ok [⟨"b", 5⟩, ⟨"a", 5⟩, ⟨"c", 3⟩, ⟨"k", 1⟩, ⟨"j", 1⟩] := by
  refine ⟨?_, rfl⟩
  intro array maxArray thresh seed hsel hseed hex
  obtain ⟨r, hrun, hr⟩ := getMaxLoop_spec array maxArray thresh hsel array.length 0 seed (by omega)
  rw [List.drop_zero] at hr
  have hget : getMax array maxArray thresh array.length = .ok r := by
    rw [getMax, hseed]
    simpa using hrun
  rcases hr with ⟨rfl, hall⟩ | ⟨L1, L2, hsplit, hqr, -, h1, h2⟩
  · obtain ⟨e, he, hq, hge⟩ := hex
    exact absurd (hall e he hq) (not_lt.mpr hge)
  · refine ⟨r, L1, L2, hget, hsplit, hqr, h1, h2, ?_⟩
    intro hsorted e he hq hfreq
    rw [hsplit] at he hsorted
    rcases List.mem_append.mp he with he | he
    · exact Or.inr ((List.pairwise_append.mp hsorted).2.2 e he r (List.mem_cons_self _ _))
    · rcases List.mem_cons.mp he with rfl | he
      · exact Or.inl rfl
      · exact absurd hfreq (ne_of_lt (h2 e he hq))

/-- Instance of C12 at the eleven-entry array, threshold 5, with b already
selected: the scan returns a. -/
theorem C12_getMax_last_of_ties_witness :
    ([⟨"b", 5⟩, default, default, default, default] : List WordEntry).length = 5 ∧
    tiesArray[10]? = some ⟨"k", 1⟩ ∧
    (∃ e ∈ tiesArray, Qualifies 5 [⟨"b", 5⟩, default, default, default, default] e ∧
      (⟨"k", 1⟩ : WordEntry).frequency ≤ e.frequency) ∧
    ∃ r L1 L2,
      getMax tiesArray [⟨"b", 5⟩, default, default, default, default] 5 tiesArray.length = .ok r ∧
      tiesArray = L1 ++ r :: L2 ∧
      Qualifies 5 [⟨"b", 5⟩, default, default, default, default] r ∧
      (∀ e ∈ L1, Qualifies 5 [⟨"b", 5⟩, default, default, default, default] e →
        e.frequency ≤ r.frequency) ∧
      (∀ e ∈ L2, Qualifies 5 [⟨"b", 5⟩, default, default, default, default] e →
        e.frequency < r.frequency) ∧
      (tiesArray.Pairwise (fun a b => a.lt b = true) →
        ∀ e ∈ tiesArray, Qualifies 5 [⟨"b", 5⟩, default, default, default, default] e →
          e.frequency = r.frequency → e = r ∨ e.lt r = true) :=
  have hex : ∃ e ∈ tiesArray, Qualifies 5 [⟨"b", 5⟩, default, default, default, default] e ∧
      (⟨"k", 1⟩ : WordEntry).frequency ≤ e.frequency :=
    ⟨⟨"a", 5⟩, by decide, ⟨by decide, by decide⟩, by decide⟩
  ⟨rfl, rfl, hex,
    C12_getMax_last_of_ties.1 tiesArray [⟨"b", 5⟩, default, default, default, default] 5
      ⟨"k", 1⟩ rfl rfl hex⟩

/-- C12 as stated fails: in the sorted eleven-entry array a:5, b:5, c:3, d to k
with 1 each, with threshold 11 and nothing selected, the entries a and b share the
greatest frequency and `getMax` returns b, the later of the two; the top-5
extraction over it does not start a(5), b(5); and over the six entries of the
stated example `getMax` reads `array[10]` outside the array. -/
theorem C12_counterexample :
    getMax tiesArray (List.replicate 5 default) 11 11 = .ok ⟨"b", 5⟩ ∧
    (⟨"a", 5⟩ : WordEntry) ∈ tiesArray ∧
    Qualifies 11 (List.replicate 5 default) ⟨"a", 5⟩ ∧
    (⟨"a", 5⟩ : WordEntry).lt ⟨"b", 5⟩ = true ∧
    topFive tiesArray 11 ≠ .ok [⟨"a", 5⟩, ⟨"b", 5⟩, ⟨"c", 3⟩, ⟨"d", 1⟩, ⟨"e", 1⟩] ∧
    topFive sixArray 6 = .error .outOfBounds := by
  refine ⟨rfl, by decide, ⟨by decide, by decide⟩, rfl, ?_, rfl⟩
  intro h
  have h1 : topFive tiesArray 11 =
      .ok [⟨"b", 5⟩, ⟨"a", 5⟩, ⟨"c", 3⟩, ⟨"k", 1⟩, ⟨"j", 1⟩] := rfl
  rw [h1] at h
  exact absurd (Except.ok.inj h) (by decide)

/-- C13, evaluated on the code: for the text in which "a" occurs twelve times and
b to k once, the array has eleven entries and the first threshold, `numNodes` = 11,
excludes a(12), so the top-5 procedure returns k, j, i, h, g, all of count 1; for
the array with k:3 and a to j at 1 the start value `array[10]` is returned by all
five calls, so one entry is selected five times; and for an array of fewer than
eleven entries `array[10]` is read outside the array. -/
theorem C13_topFive_evaluated :
    (∃ t, insertWords BST.new heavyText = .ok t ∧ t.toArray = .ok (t, heavyArray) ∧
      t.count = 11) ∧
    topFive heavyArray 11 = .ok [⟨"k", 1⟩, ⟨"j", 1⟩, ⟨"i", 1⟩, ⟨"h", 1⟩, ⟨"g", 1⟩] ∧
    topFive lateArray 11 = .ok [⟨"k", 3⟩, ⟨"k", 3⟩, ⟨"k", 3⟩, ⟨"k", 3⟩, ⟨"k", 3⟩] ∧
    topFive sixArray 6 = .error .outOfBounds :=
  ⟨⟨_, rfl, rfl, rfl⟩, rfl, rfl, rfl⟩

/-- C14, evaluated on the code: for the array with a to j at 2 and k:1 the start
value `array[10]` = k(1) is below every other count, so all five calls of `getMin`
return k and one entry is selected five times; and for an array of fewer than
eleven entries `array[10]` is read outside the array. -/
theorem C14_bottomFive_evaluated :
    (∃ t, insertWords BST.new
        (["a", "b", "c", "d", "e", "f", "g", "h", "i", "j"] ++
          ["a", "b", "c", "d", "e", "f", "g", "h", "i", "j", "k"]) = .ok t ∧
      t.toArray = .ok (t, rareLastArray) ∧ t.count = 11) ∧
    bottomFive rareLastArray 11 =
      .ok [⟨"k", 1⟩, ⟨"k", 1⟩, ⟨"k", 1⟩, ⟨"k", 1⟩, ⟨"k", 1⟩] ∧
    bottomFive sixArray 6 = .error .outOfBounds :=
  ⟨⟨_, rfl, rfl, rfl⟩, rfl, rfl⟩

/-- C19, evaluated on the code: `getMax` and `getMin` read `array[10]` before the
loop, whatever `len` is, so on every array of at most ten entries the read is
outside the array. -/
theorem C19_reads_index_ten (array sel : List WordEntry) (thresh len : Int)
    (h : array.length ≤ 10) :
    getMax array sel thresh len = .error .outOfBounds ∧
    getMin array sel thresh len = .error .outOfBounds := by
  have h10 : array[10]? = none := List.getElem?_eq_none (by omega)
  exact ⟨by rw [getMax, h10], by rw [getMin, h10]⟩

/-- Instance of C19 at the array that `toArray` returns for the tree built from b,
a, c, with the arguments of the first calls of `main`. -/
theorem C19_reads_index_ten_witness :
    sampleTree.toArray = .ok (sampleTree, [⟨"a", 1⟩, ⟨"b", 1⟩, ⟨"c", 1⟩]) ∧
    ([⟨"a", 1⟩, ⟨"b", 1⟩, ⟨"c", 1⟩] : List WordEntry).length ≤ 10 ∧
    getMax [⟨"a", 1⟩, ⟨"b", 1⟩, ⟨"c", 1⟩] (List.replicate 5 default) 3 3 =
      .error .outOfBounds ∧
    getMin [⟨"a", 1⟩, ⟨"b", 1⟩, ⟨"c", 1⟩] (List.replicate 5 default) (-1) 3 =
      .error .outOfBounds :=
  ⟨rfl, by decide,
    (C19_reads_index_ten [⟨"a", 1⟩, ⟨"b", 1⟩, ⟨"c", 1⟩] (List.replicate 5 default) 3 3
      (by decide)).1,
    (C19_reads_index_ten [⟨"a", 1⟩, ⟨"b", 1⟩, ⟨"c", 1⟩] (List.replicate 5 default) (-1) 3
      (by decide)).2⟩

end TextAnalyzer
